import Mathlib

/-!
Verification development for the minecraft-api repository.

The repository consists of one-shot batch scripts:
an object-storage upload CLI (collect files under `public/`, upload to S3-compatible
storage), an items scraper (`src/scripts/items.ts`), a blocks scraper
(`src/scripts/blocks.ts`) and a crafting-recipes scraper.

Pure fragments of the scripts are embedded as executable Lean definitions; effectful
steps (network requests, the DOM, the filesystem) are parameters: oracles passed to
the embedded control flow.  All string operations are implemented over `String.data`
character lists so that every definition evaluates by kernel reduction.
-/

/-! ## String helpers (executable, character-list based) -/

/-- Is `p` a prefix of `s` (on character lists)? -/
def listIsPre : List Char → List Char → Bool
  | [], _ => true
  | _ :: _, [] => false
  | p :: ps, c :: cs => p = c && listIsPre ps cs

/-- Models JavaScript `s.startsWith(p)`. -/
def strStartsWith (s p : String) : Bool := listIsPre p.data s.data

/-- Models JavaScript `s.endsWith(p)`. -/
def strEndsWith (s p : String) : Bool := listIsPre p.data.reverse s.data.reverse

/-- Does `sub` occur as a contiguous substring? -/
def containsSub (sub : List Char) : List Char → Bool
  | [] => listIsPre sub []
  | c :: cs => listIsPre sub (c :: cs) || containsSub sub cs

/-- Models JavaScript `s.includes(sub)`. -/
def strContains (s sub : String) : Bool := containsSub sub.data s.data

/-- Drop leading whitespace. -/
def trimLeftChars : List Char → List Char := List.dropWhile Char.isWhitespace

/-- Models JavaScript `s.trim()`. -/
def strTrim (s : String) : String := ⟨(trimLeftChars (trimLeftChars s.data.reverse).reverse)⟩

/-- Models JavaScript `s.toLowerCase()` (ASCII). -/
def lowerStr (s : String) : String := ⟨s.data.map Char.toLower⟩

/-- Split a character list at every occurrence of `sep` (like `String.split`). -/
def splitOnChar (sep : Char) : List Char → List (List Char)
  | [] => [[]]
  | c :: cs =>
    let r := splitOnChar sep cs
    if c = sep then [] :: r
    else match r with
      | [] => [[c]]
      | h :: t => (c :: h) :: t

/-- Boolean lexicographic strict order on character lists (code-unit order,
as JavaScript default `Array.sort` uses on strings). -/
def strLtChars : List Char → List Char → Bool
  | [], [] => false
  | [], _ :: _ => true
  | _ :: _, [] => false
  | a :: as, b :: bs => if a = b then strLtChars as bs else decide (a.val < b.val)

/-- Boolean `≤` on strings derived from `strLtChars`. -/
def strLeB (a b : String) : Bool := !(strLtChars b.data a.data)

/-- Insert into a sorted list (generic insertion sort step). -/
def insertBy (le : α → α → Bool) (x : α) : List α → List α
  | [] => [x]
  | y :: ys => if le x y then x :: y :: ys else y :: insertBy le x ys

/-- Generic insertion sort; models JavaScript `Array.sort(cmp)` (the claims only
depend on the result being a permutation ordered by `le`). -/
def sortBy (le : α → α → Bool) : List α → List α
  | [] => []
  | x :: xs => insertBy le x (sortBy le xs)

/-- Sort a list of strings; models JavaScript `files.sort()`. -/
def sortStrings : List String → List String := sortBy strLeB

/-- First maximal run of decimal digits, as in the first match of `/\d+/`. -/
def firstDigitRun : List Char → Option (List Char)
  | [] => none
  | c :: cs => if c.isDigit then some (c :: cs.takeWhile Char.isDigit) else firstDigitRun cs

/-- Numeric value of a digit list. -/
def natOfDigits : List Char → Nat := List.foldl (fun a c => a * 10 + (c.toNat - 48)) 0

/-- First match of `/\((\d+)\)/`: a literal parenthesis, one or more digits, a closing
parenthesis; returns the number captured. -/
def parenNumber : List Char → Option Nat
  | [] => none
  | c :: cs =>
    if c = '(' then
      let run := cs.takeWhile Char.isDigit
      if run ≠ [] ∧ (cs.drop run.length).head? = some ')' then some (natOfDigits run)
      else parenNumber cs
    else parenNumber cs

/-- Models JavaScript `parseInt(s, 10)` on already-trimmed input: optional sign, then
the leading digit run; `none` when no digits lead (NaN). -/
def jsParseInt (l : List Char) : Option Int :=
  match l with
  | '-' :: rest =>
    let run := rest.takeWhile Char.isDigit
    if run = [] then none else some (-(natOfDigits run : Int))
  | '+' :: rest =>
    let run := rest.takeWhile Char.isDigit
    if run = [] then none else some (natOfDigits run : Int)
  | _ =>
    let run := l.takeWhile Char.isDigit
    if run = [] then none else some (natOfDigits run : Int)

/-- JavaScript truthiness of an optional string (`undefined` and `""` are falsy). -/
def jsTruthy (o : Option String) : Bool :=
  match o with
  | none => false
  | some s => s ≠ ""

/-! ## Upload CLI: file collection (`collectFiles` in the upload script)

A directory tree is modelled inductively; a directory entry is a regular file or a
subdirectory (the only kinds the script handles: other entry kinds are skipped by
`entry.isDirectory() / entry.isFile()` and are omitted from the model).  Paths are
POSIX strings joined with `"/"` as `path.join` produces on POSIX. -/

inductive FsEntry where
  | file (name : String)
  | dir (name : String) (children : List FsEntry)

/-- The entry's file name. -/
def FsEntry.entryName : FsEntry → String
  | .file n => n
  | .dir n _ => n

/-- Embeds `collectFiles(dir)` of the upload script: recursively walk `dir`,
skip every entry whose name starts with `"."`, return full paths of regular files. -/
def collectFiles (dirPath : String) : List FsEntry → List String
  | [] => []
  | .file n :: rest =>
      (if strStartsWith n "." then [] else [dirPath ++ "/" ++ n]) ++ collectFiles dirPath rest
  | .dir n ch :: rest =>
      (if strStartsWith n "." then [] else collectFiles (dirPath ++ "/" ++ n) ch)
        ++ collectFiles dirPath rest

/-- Helper for reasoning about `collectFiles`: the relative paths (from the walked
root) of the files `collectFiles` keeps - entries whose name starts with `"."` are
skipped at every depth, exactly as in the source loop. -/
def visRel : List FsEntry → List String
  | [] => []
  | .file n :: rest =>
      (if strStartsWith n "." then [] else [n]) ++ visRel rest
  | .dir n ch :: rest =>
      (if strStartsWith n "." then [] else (visRel ch).map (fun r => n ++ "/" ++ r))
        ++ visRel rest

/-- Relative paths of ALL regular files in a tree, hidden or not.  This definition
follows the SPEC's words ("every regular file under an included subdirectory ...
relative POSIX path"), for comparison against the code's `collectFiles`. -/
def allRel : List FsEntry → List String
  | [] => []
  | .file n :: rest => [n] ++ allRel rest
  | .dir n ch :: rest => (allRel ch).map (fun r => n ++ "/" ++ r) ++ allRel rest

/-- Well-formedness of a directory level as a real filesystem provides it:
entry names are non-empty, contain no `/`, and sibling names are distinct. -/
def goodNameB (n : String) : Bool := n ≠ "" && !(n.data.contains '/')

/-- Does some entry of the list carry this name? -/
def namesContain (es : List FsEntry) (n : String) : Bool := es.any (fun e => e.entryName == n)

/-- Well-formed directory tree (filesystem invariants; see `goodNameB`). -/
def wfTree : List FsEntry → Bool
  | [] => true
  | .file n :: rest => goodNameB n && !namesContain rest n && wfTree rest
  | .dir n ch :: rest => goodNameB n && !namesContain rest n && wfTree ch && wfTree rest

/-! ## Upload CLI: options and main loop -/

/-- Embeds `normalizePrefix`: strip leading and trailing slashes; append a single
trailing slash when the result is non-empty. -/
def normalizeKeyPfx (p : String) : String :=
  if p = "" then ""
  else
    let t : String := ⟨((p.data.dropWhile (fun c => c = '/')).reverse.dropWhile
      (fun c => c = '/')).reverse⟩
    if t = "" then "" else t ++ "/"

/-- The shape of an AWS SDK error object, as far as `isNotFoundError` inspects it. -/
structure S3Error where
  httpStatusCode : Option Nat
  errorName : Option String
deriving DecidableEq

/-- Embeds `isNotFoundError`: HTTP 404, or error name `NotFound` / `NoSuchKey`.
(The source first checks that the thrown value is an object; SDK errors always are,
and the model only ranges over such errors.) -/
def isNotFoundError (e : S3Error) : Bool :=
  e.httpStatusCode == some 404 || e.errorName == some "NotFound" || e.errorName == some "NoSuchKey"

/-- A network request the upload loop can issue. -/
inductive S3Call where
  | head (key : String)
  | put (key : String)
deriving DecidableEq

/-- What happened to one file in the upload loop. -/
inductive FileOutcome where
  | uploaded
  | skipped
  | failed (filePath : String)
deriving DecidableEq

/-- Embeds the body of one upload task (the closure passed to `limit` in `main`).
`headFn key` / `putFn key` return `none` on success and the thrown error otherwise.
Returns the network calls issued and the file's outcome:

* dry-run: count the file, no calls;
* skip-existing: `HeadObject` first - success means skip; a not-found failure falls
  through to the upload; any other failure is caught by the outer handler (failed);
* otherwise `PutObject`; a failure is recorded in `failed`. -/
def processFile (dryRun skipExisting : Bool) (headFn putFn : String → Option S3Error)
    (key filePath : String) : List S3Call × FileOutcome :=
  if dryRun then ([], .uploaded)
  else if skipExisting then
    match headFn key with
    | none => ([.head key], .skipped)
    | some e =>
      if isNotFoundError e then
        match putFn key with
        | none => ([.head key, .put key], .uploaded)
        | some _ => ([.head key, .put key], .failed filePath)
      else ([.head key], .failed filePath)
  else
    match putFn key with
    | none => ([.put key], .uploaded)
    | some _ => ([.put key], .failed filePath)

/-- Embeds `path.relative(baseDir, filePath)` followed by `.split(path.sep).join("/")`
for a path of the form `baseDir ++ "/" ++ rel`: drop the base and the separator. -/
def relOf (base p : String) : String := ⟨p.data.drop (base.data.length + 1)⟩

/-- The object key of one collected file: normalized prefix ++ relative POSIX path. -/
def uploadKeyOf (pfx base p : String) : String := pfx ++ relOf base p

/-- Look up an include directory among the children of the public dir; models the
`fs.existsSync(dir) && fs.statSync(dir).isDirectory()` check plus `readdir` of it. -/
def findDir (tree : List FsEntry) (d : String) : Option (List FsEntry) :=
  match tree.find? (fun e => e.entryName == d) with
  | some (.dir _ ch) => some ch
  | some (.file _) => none
  | none => none

/-- Embeds the root check loop of `main`: every include directory must exist. -/
def checkRoots (tree : List FsEntry) : List String → Except String Unit
  | [] => .ok ()
  | d :: ds =>
    match findDir tree d with
    | some _ => checkRoots tree ds
    | none => .error ("Directory not found: " ++ d)

/-- Embeds the file collection of `main`: `collectFiles` over every include root,
flattened in order. -/
def collectAll (base : String) (tree : List FsEntry) : List String → List String
  | [] => []
  | d :: ds =>
    (match findDir tree d with
      | some ch => collectFiles (base ++ "/" ++ d) ch
      | none => []) ++ collectAll base tree ds

/-- Aggregate of the upload loop: calls issued, counters, failed file paths. -/
structure RunAgg where
  calls : List S3Call
  uploaded : Nat
  skipped : Nat
  failed : List String
deriving DecidableEq

/-- Fold of `processFile` over the file list, accumulating calls, the `uploaded` and
`skipped` counters and the `failed` list exactly as the tasks do. -/
def runFiles (dryRun skipExisting : Bool) (headFn putFn : String → Option S3Error)
    (pfx base : String) : List String → RunAgg
  | [] => ⟨[], 0, 0, []⟩
  | p :: rest =>
    let step := processFile dryRun skipExisting headFn putFn (uploadKeyOf pfx base p) p
    let acc := runFiles dryRun skipExisting headFn putFn pfx base rest
    { calls := step.1 ++ acc.calls
      uploaded := (match step.2 with | .uploaded => 1 | _ => 0) + acc.uploaded
      skipped := (match step.2 with | .skipped => 1 | _ => 0) + acc.skipped
      failed := (match step.2 with | .failed fp => [fp] | _ => []) ++ acc.failed }

/-- Result of a completed upload run. -/
structure RunResult where
  calls : List S3Call
  uploaded : Nat
  skipped : Nat
  failed : List String
  files : List String
deriving DecidableEq

/-- Embeds `main` of the upload script after option parsing: check the include roots,
collect and sort the files, process each file.  A thrown setup error is the
`Except.error` case (caught by the top-level `main().catch`). -/
def runUpload (dryRun skipExisting : Bool) (pfx base : String) (includes : List String)
    (tree : List FsEntry) (headFn putFn : String → Option S3Error) :
    Except String RunResult :=
  match checkRoots tree includes with
  | .error e => .error e
  | .ok _ =>
    let files := sortStrings (collectAll base tree includes)
    let agg := runFiles dryRun skipExisting headFn putFn pfx base files
    .ok ⟨agg.calls, agg.uploaded, agg.skipped, agg.failed, files⟩

/-- Process exit code: a thrown error is caught by `main().catch` (exit 1);
otherwise exit 1 exactly when `failed.length > 0`, else 0. -/
def exitCodeOf (res : Except String RunResult) : Nat :=
  match res with
  | .error _ => 1
  | .ok r => if 0 < r.failed.length then 1 else 0

/-- Number of files that failed to upload during the run (none when the run never
reached the upload phase). -/
def failedUploads (res : Except String RunResult) : Nat :=
  match res with
  | .error _ => 0
  | .ok r => r.failed.length

/-- The list of object keys a run computes, in order (one per collected file).
This mirrors `key = prefix + rel` of the task body. -/
def uploadKeysModel (pfx base : String) (includes : List String) (tree : List FsEntry) :
    List String :=
  (sortStrings (collectAll base tree includes)).map (fun p => uploadKeyOf pfx base p)

/-- Upload keys the SPEC describes: one key per regular file (hidden or not) under an
included subdirectory, `key = prefix ++ relative POSIX path`.  Written from the
spec's sentence, to be compared with the code's key set. -/
def specAllFileKeys (pfx : String) (includes : List String) (tree : List FsEntry) :
    List String :=
  match includes with
  | [] => []
  | d :: ds =>
    (match findDir tree d with
      | some ch => (allRel ch).map (fun r => pfx ++ (d ++ "/" ++ r))
      | none => []) ++ specAllFileKeys pfx ds tree

/-- Visible-file keys: like `specAllFileKeys` but only for files whose relative path
contains no hidden component (the amendment the code forces). -/
def specVisibleKeys (pfx : String) (includes : List String) (tree : List FsEntry) :
    List String :=
  match includes with
  | [] => []
  | d :: ds =>
    (match findDir tree d with
      | some ch => (visRel ch).map (fun r => pfx ++ (d ++ "/" ++ r))
      | none => []) ++ specVisibleKeys pfx ds tree

/-! ## Upload CLI: env-file loading (`loadEnvFileIfPresent`) -/

/-- The process environment: a partial map from variable names to values. -/
def EnvMap := String → Option String

/-- Point update of the environment. -/
def setEnv (env : EnvMap) (k v : String) : EnvMap :=
  fun x => if x = k then some v else env x

/-- ASCII letter or underscore (first character of an env key). -/
def isKeyStart (c : Char) : Bool := c.isAlpha || c = '_'

/-- ASCII letter, digit or underscore (later characters of an env key). -/
def isKeyChar (c : Char) : Bool := c.isAlpha || c.isDigit || c = '_'

/-- Match the line against `^([A-Za-z_][A-Za-z0-9_]*)\s*=\s*(.*)$`; return the key
and the raw value (group 2). -/
def parseEnvAssign (l : List Char) : Option (String × String) :=
  match l with
  | [] => none
  | c :: cs =>
    if isKeyStart c then
      let keyRest := cs.takeWhile isKeyChar
      let afterKey := (cs.drop keyRest.length).dropWhile Char.isWhitespace
      match afterKey with
      | '=' :: rest => some (⟨c :: keyRest⟩, ⟨rest.dropWhile Char.isWhitespace⟩)
      | _ => none
    else none

/-- The single-quote character (codepoint 39). -/
def squote : Char := Char.ofNat 39

/-- Strip the first trailing whitespace-then-`#` comment, as the replacement of
`/\s+#.*$/` by the empty string does: cut at the first whitespace run that is
immediately followed by `#`. -/
def cutWsHash : List Char → List Char
  | [] => []
  | c :: cs =>
    if c.isWhitespace && ((c :: cs).dropWhile Char.isWhitespace).head? = some '#' then []
    else c :: cutWsHash cs

/-- Value post-processing of the env loader: trim; strip one pair of surrounding
quotes, or else drop a trailing ` # comment` and trim again. -/
def cookEnvValue (raw : String) : String :=
  let v := strTrim raw
  if (strStartsWith v "\"" && strEndsWith v "\"")
      || (strStartsWith v ⟨[squote]⟩ && strEndsWith v ⟨[squote]⟩) then
    ⟨(v.data.drop 1).dropLast⟩
  else strTrim ⟨cutWsHash v.data⟩

/-- Process one line of the env file: trim; skip blank lines and `#` comments; skip
lines that do not match the assignment pattern; never overwrite a key that is
already present in the environment. -/
def processEnvLine (env : EnvMap) (rawLine : String) : EnvMap :=
  let line := strTrim rawLine
  if line = "" || strStartsWith line "#" then env
  else
    match parseEnvAssign line.data with
    | none => env
    | some kv =>
      if (env kv.1).isSome then env
      else setEnv env kv.1 (cookEnvValue kv.2)

/-- Split file content on `/\r?\n/`. -/
def splitLines (content : String) : List String :=
  (splitOnChar '\n' content.data).map
    (fun l => if l.getLast? = some '\r' then ⟨l.dropLast⟩ else (⟨l⟩ : String))

/-- Embeds `loadEnvFileIfPresent` for a file that exists with the given content:
fold `processEnvLine` over its lines.  (When the file is absent the function
returns without touching the environment at all.) -/
def loadEnvFileIfPresent (env : EnvMap) (content : String) : EnvMap :=
  (splitLines content).foldl processEnvLine env

/-! ## Items script (`src/scripts/items.ts`)

The scraper's per-item network/DOM steps are oracles; the pure decision logic
(`shouldProcessItem`, `getStackSize`, the special-items table, error recording and
the report) is embedded directly. -/

/-- An output record of the items script (`Item` of `src/types`). -/
structure Item where
  name : String
  namespacedId : String
  description : String
  image : String
  renewable : Bool
  stackSize : Int
deriving DecidableEq, Inhabited

/-- Embeds `EXCLUDED_ITEMS`. -/
def EXCLUDED_ITEMS : List String :=
  ["Lingering Potion", "Potion", "Splash Potion", "Tipped Arrow", "Music Disc",
   "Chorus Plant", "Ominous Shield"]

/-- Embeds `shouldProcessItem`: truthy name, not already present (by display name in
the initial `names` list), not excluded. -/
def shouldProcessItem (names : List String) (name : String) : Bool :=
  name ≠ "" && !names.contains name && !EXCLUDED_ITEMS.contains name

/-- Embeds `getStackSize`.  `stackText` is the trimmed-later `td.textContent` of the
`Stackable` infobox row (`none` when the page has no such row, in which case the
page evaluation returns `null`). -/
def getStackSize (name : String) (stackText : Option String) : Option Int :=
  if (["Pufferfish"] : List String).contains name then some 1
  else
    match stackText with
    | none => none
    | some raw =>
      let text := strTrim raw
      if text == "No" || strContains text "JE: No" then some 1
      else if strStartsWith text "Yes," then
        some (match firstDigitRun text.data with
          | some run => (natOfDigits run : Int)
          | none => 64)
      else
        match parenNumber text.data with
        | some n => some (n : Int)
        | none =>
          match jsParseInt text.data with
          | some i => some i
          | none => none

/-- Embeds the stack-size step of `getItemDetails` (lines 455-458): a `null` stack
size throws; otherwise the value is used verbatim in the produced record. -/
def getItemDetailsStackSize (name : String) (stackText : Option String) : Except String Int :=
  match getStackSize name stackText with
  | none => .error ("Stack size not found for item: " ++ name)
  | some s => .ok s

/-- Embeds the record construction of `getItemDetails`, with the scraped page data
(image URL, renewability, description, stack-size text) abstracted as inputs: the
produced record carries the stack size exactly as `getStackSize` returned it. -/
def getItemDetailsModel (name namespacedId description image : String) (renewable : Bool)
    (stackText : Option String) : Except String Item :=
  match getItemDetailsStackSize name stackText with
  | .error e => .error e
  | .ok s => .ok ⟨name, namespacedId, description, image, renewable, s⟩

/-- One entry of the special-pages table of `processSpecialItems`. -/
structure SpecialPage where
  page : String
  namespacedId : Option String
  stackSize : Int
  renewable : String → Bool
  filter : String → Nat → Bool

/-- Embeds the `pages` table of `processSpecialItems` (the nine special wiki pages
with their default namespaced id, stack size, renewability rule and row filter). -/
def specialItemPages : List SpecialPage :=
  [ ⟨"Tipped_Arrow", some "tipped_arrow", 64,
      fun title => !((["Uncraftable", "Luck"] : List String).any (fun t => strEndsWith title t)),
      fun title _ => !((["Arrow", "Spectral Arrow"] : List String).contains title)
        && !strContains title "Decay"⟩,
    ⟨"Bundle", some "bundle", 1, fun _ => true, fun _ _ => true⟩,
    ⟨"Shield", some "shield", 1, fun _ => true, fun _ _ => true⟩,
    ⟨"Potion", some "potion", 1,
      fun title => !((["Uncraftable", "Luck"] : List String).any (fun t => strEndsWith title t)),
      fun title _ => !strContains title "Decay"⟩,
    ⟨"Splash_Potion", some "splash_potion", 1,
      fun title => !((["Uncraftable", "Luck"] : List String).any (fun t => strEndsWith title t)),
      fun title _ => !strContains title "Decay"⟩,
    ⟨"Lingering_Potion", some "lingering_potion", 1,
      fun title => !((["Uncraftable", "Luck"] : List String).any (fun t => strEndsWith title t)),
      fun title _ => !strContains title "Decay"⟩,
    ⟨"Map", some "filled_map", 64, fun _ => true, fun _ i => i < 2⟩,
    ⟨"Explorer_Map", some "filled_map", 64,
      fun title => title ≠ "Buried Treasure Map", fun _ i => i < 3⟩,
    ⟨"Music_Disc", none, 1,
      fun title => !((["otherside", "Pigstep"] : List String).any (fun d => strContains title d)),
      fun _ _ => true⟩ ]

/-- Replace the first occurrence of `pat` in the list (JavaScript
`String.replace` with a string pattern replaces only the first match). -/
def replaceFirstChars (pat rep : List Char) : List Char → List Char
  | [] => []
  | c :: cs =>
    if listIsPre pat (c :: cs) then rep ++ (c :: cs).drop pat.length
    else c :: replaceFirstChars pat rep cs

/-- Models `name.toLowerCase().replace(/ /g, "_")`. -/
def underscoreLower (s : String) : String :=
  ⟨(lowerStr s).data.map (fun c => if c = ' ' then '_' else c)⟩

/-- Models the Music Disc name mangling: the last space-separated word, lowercased,
with the first `)` removed; `"unknown"` when that comes out empty. -/
def musicDiscName (s : String) : String :=
  let lastPiece : List Char :=
    match (splitOnChar ' ' s.data).getLast? with
    | some l => l
    | none => []
  let dn : String := ⟨replaceFirstChars [')'] [] (lowerStr ⟨lastPiece⟩).data⟩
  if dn = "" then "unknown" else dn

/-- Embeds the per-item loop of `processSpecialItemPage` over the scraped
`itemsData` (pairs of name and optional image URL, already filtered by
`getSpecialItemsData`).  `downloadOk url` is the image-download oracle; a failed or
missing download records the item as errored instead of pushing it.  Returns the
pushed records and the names recorded as errored, in order. -/
def processSpecialItemPage (pageName : String) (defaultNamespacedId : Option String)
    (stackSize : Int) (isRenewable : String → Bool) (description : String)
    (downloadOk : String → Bool) :
    List (String × Option String) → List Item × List String
  | [] => ([], [])
  | (name0, imageUrl) :: rest =>
    let acc := processSpecialItemPage pageName defaultNamespacedId stackSize isRenewable
      description downloadOk rest
    let imageName0 := underscoreLower name0
    let isMusic := pageName == "Music_Disc"
    let name := if isMusic then "Music Disc (" ++ name0 ++ ")" else name0
    let updatedNamespacedId :=
      if isMusic then some ("music_disc_" ++ musicDiscName name0) else defaultNamespacedId
    let imageName := if isMusic then "music_disc_" ++ musicDiscName name0 else imageName0
    match imageUrl with
    | none => (acc.1, name0 :: acc.2)
    | some url =>
      if downloadOk url then
        let ext := if strContains url ".gif" then "gif" else "png"
        let image := "https://mc.geertvandrunen.nl/_new/items/" ++ imageName ++ "." ++ ext
        (⟨name, (updatedNamespacedId.getD ""), description, image, isRenewable name,
          stackSize⟩ :: acc.1, acc.2)
      else (acc.1, name0 :: acc.2)

/-- One recorded error of the items script. -/
structure ItemError where
  stage : String
  message : String
deriving DecidableEq

/-- One entry of the `erroredItems` map. -/
structure ItemErrorEntry where
  category : String
  name : String
  namespacedId : Option String
  url : Option String
  errors : List ItemError
deriving DecidableEq

/-- The `erroredItems` map: association list in insertion order (JavaScript `Map`). -/
def ErrMap := List (String × ItemErrorEntry)

/-- Association-list lookup (models `Map.get`). -/
def errLookup : List (String × ItemErrorEntry) → String → Option ItemErrorEntry
  | [], _ => none
  | kv :: rest, k => if kv.1 = k then some kv.2 else errLookup rest k

/-- Embeds `recordItemError`: append the error to an existing entry (filling in a
missing namespaced id or url), or insert a fresh entry at the end. -/
def recordItemError (m : List (String × ItemErrorEntry)) (category stage name : String)
    (nsId url : Option String) (message : String) : List (String × ItemErrorEntry) :=
  let key := category ++ ":" ++ name
  match errLookup m key with
  | some _ =>
    m.map (fun kv =>
      if kv.1 = key then
        (kv.1,
          { kv.2 with
            errors := kv.2.errors ++ [⟨stage, message⟩]
            namespacedId :=
              if !jsTruthy kv.2.namespacedId && jsTruthy nsId then nsId else kv.2.namespacedId
            url := if !jsTruthy kv.2.url && jsTruthy url then url else kv.2.url })
      else kv)
  | none => m ++ [(key, ⟨category, name, nsId, url, [⟨stage, message⟩]⟩)]

/-- Mutable state of the items script: the result list and the error map. -/
structure ItemsState where
  items : List Item
  errored : List (String × ItemErrorEntry)

/-- The outcome of the three scraping steps for one regular item row, abstracted
from the network: `getNamespacedId`, `getItemPageUrl`, `getItemDetails`. -/
structure RegRow where
  name : String
  nsRes : Except String String
  urlRes : Except String String
  detRes : Except String Item

/-- Embeds `populateItemsJson`: each stage's failure is recorded (with the stage
name and whatever ids are known by then) and processing of this item stops; a
successful item is appended to the result list. -/
def populateItemsJson (st : ItemsState) (row : RegRow) : ItemsState :=
  match row.nsRes with
  | .error e =>
    let m := recordItemError st.errored "regular" "getNamespacedId" row.name none none e
    { st with errored := m }
  | .ok nsid =>
    match row.urlRes with
    | .error e =>
      let m := recordItemError st.errored "regular" "getItemPageUrl" row.name (some nsid) none e
      { st with errored := m }
    | .ok url =>
      match row.detRes with
      | .error e =>
        let m := recordItemError st.errored "regular" "getItemDetails" row.name (some nsid)
          (some url) e
        { st with errored := m }
      | .ok item => { st with items := st.items ++ [item] }

/-- Embeds the row loop of `processRegularItems`: rows whose name fails
`shouldProcessItem` are skipped; every other row is processed by
`populateItemsJson`; the loop never aborts. -/
def processRegularItems (names0 : List String) (st : ItemsState) : List RegRow → ItemsState
  | [] => st
  | row :: rest =>
    processRegularItems names0
      (if shouldProcessItem names0 row.name then populateItemsJson st row else st) rest

/-- Order on report entries: category, then name (the report's sort comparator). -/
def entryLe (a b : ItemErrorEntry) : Bool :=
  if a.category = b.category then strLeB a.name b.name else !(strLtChars b.category.data a.category.data)

/-- Embeds `writeErroredItemsReport`: with no recorded errors nothing is written;
otherwise the sorted entries become the JSON report and the newline-joined names
(with a trailing newline) become the plain-text list. -/
def writeErroredItemsReport (m : List (String × ItemErrorEntry)) :
    Option (List ItemErrorEntry × String) :=
  let entries := sortBy entryLe (m.map Prod.snd)
  if entries.length = 0 then none
  else some (entries, String.intercalate "\n" (entries.map ItemErrorEntry.name) ++ "\n")

/-! ## Blocks script (`src/scripts/blocks.ts`): per-row error handling

The 500-line row body is abstracted to its possible outcomes; the embedded part is
the control flow around it: the `noarticletext` branch pushes the name onto
`notfoundlist` and returns; the catch handler (lines 666-674) logs the error,
closes the page, evaluates `Promise.reject(e)` - a dangling rejected promise,
annotated in the source with "stop the script if an error occurs" - and returns.
Nothing records the error in any report. -/

/-- Outcome of one block row's body, as far as the surrounding control flow cares. -/
inductive BlockRowSim where
  | alreadyExists
  | noImage
  | noContent
  | ok
  | fails (message : String)
deriving DecidableEq

/-- Result of the blocks run: pushed block names, the `notfoundlist`, names whose
processing left a dangling rejected promise, and how many rows were handled. -/
structure BlocksResult where
  blocks : List String
  notfound : List String
  unhandledRejections : List String
  processed : Nat
deriving DecidableEq

/-- Embeds the control flow of one row task of the blocks script. -/
def runBlocksRow (st : BlocksResult) (name : String) (sim : BlockRowSim) : BlocksResult :=
  match sim with
  | .alreadyExists => { st with processed := st.processed + 1 }
  | .noImage => { st with processed := st.processed + 1 }
  | .noContent =>
    { st with notfound := st.notfound ++ [name], processed := st.processed + 1 }
  | .ok => { st with blocks := st.blocks ++ [name], processed := st.processed + 1 }
  | .fails _ =>
    { st with unhandledRejections := st.unhandledRejections ++ [name]
              processed := st.processed + 1 }

/-- Embeds the row loop of the blocks script. -/
def runBlocks (rows : List (String × BlockRowSim)) : BlocksResult :=
  rows.foldl (fun st r => runBlocksRow st r.1 r.2) ⟨[], [], [], 0⟩

/-- The blocks half of the error-handling claim, formalized: an erroring block row
leaves no dangling rejection (so nothing can abort the process) - this is what
"the batch does not abort" requires of the code, and what the counterexample
refutes. -/
def blocksNeverAbort (rows : List (String × BlockRowSim)) : Prop :=
  (runBlocks rows).unhandledRejections = []

/-! ## Recipes script (the crafting scraper)

One slot of the 3x3 grid is serialized by the script as `null`, a single ingredient
name, or an array of alternatives whose elements are strings or `null`. -/

/-- One grid slot as the script produces it. -/
inductive Slot where
  | empty
  | ing (s : String)
  | alts (l : List (Option String))
deriving DecidableEq

/-- A crafting recipe record.  Scraped recipes set only `item` and `recipe`
(`quantity` and `shapeless` stay undefined: the scrape builds a
`Partial<CraftingRecipe>`); the special-case generators set all four fields. -/
structure CraftingRecipe where
  item : Option String
  quantity : Option Int
  recipe : List Slot
  shapeless : Option Bool
deriving DecidableEq, Inhabited

/-- One `.invslot-item` variant inside an input tile: its optional
`data-minetip-title` attribute, its optional `<a>` child with that anchor's
optional `title` attribute, and whether the node has children. -/
structure RecVariant where
  minetip : Option String
  link : Option (Option String)
  hasChildNodes : Bool

/-- One `.mcui-output .invslot-item` element. -/
structure RecOutput where
  minetip : Option String
  link : Option (Option String)

/-- One (already filter-passed) table row of the crafting page: output items and
the input tiles, each tile a list of variants. -/
structure RecRow where
  outputs : List RecOutput
  tiles : List (List RecVariant)

/-- Name of one output item: the `data-minetip-title` attribute when present and
not starting with `&`, else the anchor's `title` (a missing anchor is a thrown
`TypeError`; a missing `title` attribute is `null`). -/
def outputName (o : RecOutput) : Except String (Option String) :=
  match o.minetip with
  | some t =>
    if strStartsWith t "&" then
      match o.link with
      | none => .error "TypeError: no anchor in output slot"
      | some tt => .ok tt
    else .ok (some t)
  | none =>
    match o.link with
    | none => .error "TypeError: no anchor in output slot"
    | some tt => .ok tt

/-- Names of all output items of a row, in order. -/
def collectOutputNames : List RecOutput → Except String (List (Option String))
  | [] => .ok []
  | o :: os =>
    match outputName o with
    | .error e => .error e
    | .ok n =>
      match collectOutputNames os with
      | .error e => .error e
      | .ok ns => .ok (n :: ns)

/-- Title of one variant in the many-alternatives branch: `data-minetip-title` when
present, else the anchor's `title` (missing anchor: thrown `TypeError`). -/
def variantTitle (v : RecVariant) : Except String (Option String) :=
  match v.minetip with
  | some t => .ok (some t)
  | none =>
    match v.link with
    | none => .error "TypeError: no anchor in variant"
    | some t => .ok t

/-- Titles of a variant list, in order. -/
def collectTitles : List RecVariant → Except String (List (Option String))
  | [] => .ok []
  | v :: vs =>
    match variantTitle v with
    | .error e => .error e
    | .ok t =>
      match collectTitles vs with
      | .error e => .error e
      | .ok ts => .ok (t :: ts)

/-- Embeds the per-tile logic of `processRow`: no variant is an empty slot; a single
variant is the anchor's title; when the variant count equals the output count the
variant at the output's index is picked (an empty node is `null`); otherwise the
whole title list becomes the slot's alternatives. -/
def tileSlot (total index : Nat) (variants : List RecVariant) : Except String Slot :=
  match variants with
  | [] => .ok .empty
  | [v] =>
    match v.link with
    | none => .error "TypeError: no anchor in single variant"
    | some none => .ok .empty
    | some (some t) => .ok (.ing t)
  | _ =>
    if variants.length = total then
      match variants.get? index with
      | none => .error "variant index out of range"
      | some v =>
        if !v.hasChildNodes then .ok .empty
        else
          match v.minetip with
          | some t => .ok (.ing t)
          | none =>
            match v.link with
            | some none => .ok .empty
            | some (some t) => .ok (.ing t)
            | none => .error "No title found for variant index"
    else
      match collectTitles variants with
      | .error e => .error e
      | .ok ts => .ok (.alts ts)

/-- Slots of all nine tiles for the output at `index`. -/
def rowSlots (total index : Nat) : List (List RecVariant) → Except String (List Slot)
  | [] => .ok []
  | t :: ts =>
    match tileSlot total index t with
    | .error e => .error e
    | .ok s =>
      match rowSlots total index ts with
      | .error e => .error e
      | .ok ss => .ok (s :: ss)

/-- One recipe per output item: the 9-tile check (`throw` when the input grid does
not have exactly 9 slots) followed by the per-tile slot extraction. -/
def rowRecipes (tiles : List (List RecVariant)) (total : Nat) :
    List (Option String) → Nat → Except String (List CraftingRecipe)
  | [], _ => .ok []
  | nm :: rest, index =>
    if tiles.length ≠ 9 then .error "Recipe does not have 9 tiles"
    else
      match rowSlots total index tiles with
      | .error e => .error e
      | .ok slots =>
        match rowRecipes tiles total rest (index + 1) with
        | .error e => .error e
        | .ok rs => .ok (⟨nm, none, slots, none⟩ :: rs)

/-- Embeds `processRow` for one filtered row. -/
def processRow (row : RecRow) : Except String (List CraftingRecipe) :=
  match collectOutputNames row.outputs with
  | .error e => .error e
  | .ok names => rowRecipes row.tiles names.length names 0

/-- Embeds `scrapeCraftingRecipes` over the filtered rows: map `processRow` and
flatten (`filter(Boolean)` drops nothing since every recipe object is truthy).
Any thrown error aborts the whole `page.evaluate`. -/
def scrapeCraftingRecipes : List RecRow → Except String (List CraftingRecipe)
  | [] => .ok []
  | r :: rs =>
    match processRow r with
    | .error e => .error e
    | .ok recs =>
      match scrapeCraftingRecipes rs with
      | .error e => .error e
      | .ok more => .ok (recs ++ more)

/-- Embeds the `woodTypes` constant of the recipes script. -/
def woodTypes : List String :=
  ["Oak Planks", "Spruce Planks", "Birch Planks", "Jungle Planks", "Acacia Planks",
   "Dark Oak Planks", "Crimson Planks", "Warped Planks"]

/-- Embeds the `colors` constant of the recipes script. -/
def recipeColors : List String :=
  ["White", "Orange", "Magenta", "Light Blue", "Yellow", "Lime", "Pink", "Gray",
   "Light Gray", "Cyan", "Purple", "Blue", "Brown", "Green", "Red", "Black"]

/-- Embeds the `effects` constant of the recipes script. -/
def potionEffects : List String :=
  ["Splashing", "Regeneration", "Swiftness", "Fire Resistance", "Poison", "Healing",
   "Night Vision", "Weakness", "Strength", "Slowness", "Leaping", "Harming",
   "Water Breathing", "Invisibility", "Luck", "the Turtle Master", "Slow Falling"]

/-- A tool material's grid entry: a single item name or a list of alternatives. -/
inductive MatItem where
  | one (s : String)
  | many (l : List String)

/-- The slot a material entry occupies in a tool recipe. -/
def MatItem.slot : MatItem → Slot
  | .one s => .ing s
  | .many l => .alts (l.map some)

/-- Embeds the `materials` constant of the recipes script. -/
def toolMaterials : List (String × MatItem) :=
  [("Wooden", .many woodTypes), ("Stone", .one "Cobblestone"), ("Iron", .one "Iron Ingot"),
   ("Golden", .one "Gold Ingot"), ("Diamond", .one "Diamond")]

/-- Embeds `addColoredBedRecipes`. -/
def addColoredBedRecipes (colors woods : List String) : List CraftingRecipe :=
  colors.map (fun color =>
    ⟨some (color ++ " Bed"), some 1,
      [.empty, .empty, .empty,
       .ing (color ++ " Wool"), .ing (color ++ " Wool"), .ing (color ++ " Wool"),
       .alts (woods.map some), .alts (woods.map some), .alts (woods.map some)],
      some false⟩)

/-- Embeds `addShulkerBoxRecipes`. -/
def addShulkerBoxRecipes (colors : List String) : List CraftingRecipe :=
  colors.map (fun color =>
    ⟨some (color ++ " Shulker Box"), some 1,
      [.empty, .empty, .empty,
       .alts ((colors.map (fun c => c ++ " Shulker Box")).map some),
       .ing (color ++ " Dye"), .empty, .empty, .empty, .empty],
      some true⟩)

/-- Embeds `addToolRecipes` (the five tools per material). -/
def addToolRecipes (materials : List (String × MatItem)) : List CraftingRecipe :=
  materials.foldr (fun material acc =>
    let m := material.2.slot
    [(⟨some (material.1 ++ " Pickaxe"), some 1,
        [m, m, m, .empty, .ing "Stick", .empty, .empty, .ing "Stick", .empty],
        some false⟩ : CraftingRecipe),
     ⟨some (material.1 ++ " Sword"), some 1,
        [.empty, m, .empty, .empty, m, .empty, .empty, .ing "Stick", .empty],
        some false⟩,
     ⟨some (material.1 ++ " Axe"), some 1,
        [m, m, .empty, m, .ing "Stick", .empty, .empty, .ing "Stick", .empty],
        some false⟩,
     ⟨some (material.1 ++ " Shovel"), some 1,
        [.empty, m, .empty, .empty, .ing "Stick", .empty, .empty, .ing "Stick", .empty],
        some false⟩,
     ⟨some (material.1 ++ " Hoe"), some 1,
        [m, m, .empty, .empty, .ing "Stick", .empty, .empty, .ing "Stick", .empty],
        some false⟩] ++ acc) []

/-- Embeds `addFireworkRecipes`: the two Firework Star recipes and the two Firework
Rocket recipes; several slots are alternative lists that CONTAIN `null`. -/
def addFireworkRecipes (colors : List String) : List CraftingRecipe :=
  let dyes := colors.map (fun color => color ++ " Dye")
  let dyesO := dyes.map some
  [⟨some "Firework Star", some 1,
     [.ing "Gunpowder", .alts dyesO,
      .alts ([none] ++ dyesO ++ [some "Skeleton Skull", some "Wither Skeleton Skull",
        some "Zombie Head", some "Player Head", some "Creeper Head", some "Dragon Head",
        some "Gold Nugget", some "Feather", some "Fire Charge"]),
      .alts ([none] ++ dyesO ++ [some "Glowstone"]),
      .alts ([none] ++ dyesO ++ [some "Diamond"]),
      .alts ([none] ++ dyesO), .alts ([none] ++ dyesO), .alts ([none] ++ dyesO),
      .alts ([none] ++ dyesO)],
     some true⟩,
   ⟨some "Firework Star", some 1,
     [.empty, .empty, .empty, .ing "Firework Star", .alts dyesO, .empty, .empty,
      .empty, .empty],
     some true⟩,
   ⟨some "Firework Rocket", some 3,
     [.empty, .empty, .empty, .ing "Paper", .ing "Gunpowder",
      .alts [none, some "Gunpowder"], .alts [none, some "Gunpowder"], .empty, .empty],
     some true⟩,
   ⟨some "Firework Rocket", some 3,
     [.empty, .empty, .empty, .ing "Firework Star", .ing "Paper", .ing "Gunpowder",
      .alts [none, some "Gunpowder"], .alts [none, some "Gunpowder"], .empty],
     some true⟩]

/-- Embeds `addTippedArrowRecipes`. -/
def addTippedArrowRecipes (effects : List String) : List CraftingRecipe :=
  effects.map (fun effect =>
    let potion :=
      if effect == "Splashing" then "Lingering Water Bottle"
      else "Lingering Potion of " ++ effect
    ⟨some ("Arrow of " ++ effect), some 8,
      [.ing "Arrow", .ing "Arrow", .ing "Arrow", .ing "Arrow", .ing potion,
       .ing "Arrow", .ing "Arrow", .ing "Arrow", .ing "Arrow"],
      some false⟩)

/-- Embeds `addWrittenBookRecipes`: for `i` in `1..8`, a Written Book plus `i`
Book and Quills and `8 - i` empty slots. -/
def addWrittenBookRecipes : List CraftingRecipe :=
  (List.range 8).map (fun k =>
    let i : Nat := k + 1
    ⟨some "Written Book", some (Int.ofNat i),
      [Slot.ing "Written Book"] ++ List.replicate i (Slot.ing "Book and Quill")
        ++ List.replicate (8 - i) Slot.empty,
      some true⟩)

/-- All recipes the script produces: the scraped recipes (the `recipes` array) with
the six special-case generators' pushes appended in program order. -/
def producedRecipes (scraped : List CraftingRecipe) : List CraftingRecipe :=
  scraped ++ addColoredBedRecipes recipeColors woodTypes
    ++ addShulkerBoxRecipes recipeColors
    ++ addToolRecipes toolMaterials
    ++ addFireworkRecipes recipeColors
    ++ addTippedArrowRecipes potionEffects
    ++ addWrittenBookRecipes

/-- The slot shape the CLAIM asserts: `null`, a single ingredient string, or a
non-empty list all of whose elements are ingredient strings. -/
def claimSlotOKB : Slot → Bool
  | .empty => true
  | .ing _ => true
  | .alts l => !l.isEmpty && l.all (fun e => e.isSome)

/-- The slot shape the code guarantees: `null`, a single ingredient string, or a
non-empty list whose elements are ingredient strings or `null`. -/
def slotNonEmptyOK : Slot → Prop
  | .empty => True
  | .ing _ => True
  | .alts l => l ≠ []

/-! ## Auxiliary definitions used by the theorem statements -/

/-- No character `.` immediately follows a `/` anywhere in the list: together with a
head that is not `.`, this says no `/`-separated path component starts with a dot. -/
def noDotAfterSlash : List Char → Bool
  | [] => true
  | c :: rest => !(c = '/' && rest.head? = some '.') && noDotAfterSlash rest

/-- The first `/`-separated component of a path string. -/
def firstComp (s : String) : String := ⟨s.data.takeWhile (fun c => !(c == '/'))⟩

/-- Does some scraping stage of this row throw? -/
def rowErrs (row : RegRow) : Bool :=
  row.nsRes.toOption.isNone || row.urlRes.toOption.isNone || row.detRes.toOption.isNone

/-- The numbers `getStackSize` can extract from a Stackable text: the first digit
run, the first parenthesized number, and the `parseInt` value. -/
def stackCandidates (l : List Char) : List Int :=
  (match firstDigitRun l with
    | some run => [(natOfDigits run : Int)]
    | none => [])
  ++ (match parenNumber l with
    | some n => [(n : Int)]
    | none => [])
  ++ (match jsParseInt l with
    | some i => [i]
    | none => [])

/-! ## General lemmas -/

theorem str_data_append (a b : String) : (a ++ b).data = a.data ++ b.data := by
  cases a; cases b; rfl

theorem str_append_assoc (a b c : String) : a ++ b ++ c = a ++ (b ++ c) := by
  apply String.ext
  simp [str_data_append]

theorem str_append_cancel_left {a b c : String} (h : a ++ b = a ++ c) : b = c := by
  apply String.ext
  have hd : a.data ++ b.data = a.data ++ c.data := by
    rw [← str_data_append, ← str_data_append, h]
  exact List.append_cancel_left hd

theorem insertBy_perm (le : α → α → Bool) (x : α) (l : List α) :
    List.Perm (insertBy le x l) (x :: l) := by
  induction l with
  | nil => simp [insertBy]
  | cons y ys ih =>
    simp only [insertBy]
    split
    · exact List.Perm.refl _
    · exact (ih.cons y).trans (List.Perm.swap x y ys)

theorem sortBy_perm (le : α → α → Bool) (l : List α) : List.Perm (sortBy le l) l := by
  induction l with
  | nil => simp [sortBy]
  | cons x xs ih => exact (insertBy_perm le x (sortBy le xs)).trans (ih.cons x)

theorem sortStrings_perm (l : List String) : List.Perm (sortStrings l) l :=
  sortBy_perm strLeB l

/-! ## C10: env-file loading never overwrites an existing variable -/

theorem processEnvLine_preserves (env : EnvMap) (line : String) {k v : String}
    (h : env k = some v) : processEnvLine env line k = some v := by
  unfold processEnvLine
  split
  · exact h
  · cases hp : parseEnvAssign (strTrim line).data with
    | none => simp only [hp]; exact h
    | some kv =>
        simp only [hp]
        by_cases hs : (env kv.1).isSome = true
        · rw [if_pos hs]; exact h
        · rw [if_neg hs]
          simp only [setEnv]
          by_cases hk : k = kv.1
          · rw [hk] at h
            rw [h] at hs
            simp at hs
          · rw [if_neg hk]
            exact h

theorem loadEnv_preserves (env : EnvMap) (ls : List String) {k v : String}
    (h : env k = some v) : ls.foldl processEnvLine env k = some v := by
  induction ls generalizing env with
  | nil => exact h
  | cons l ls ih => exact ih (processEnvLine env l) (processEnvLine_preserves env l h)

/-- C10: loading the env file never changes an environment variable that is already
set - every key present in the environment before the call keeps its value - and a
key whose value differs after the call was previously unset. -/
theorem env_load_preserves_existing (env : EnvMap) (content : String) (k : String) :
    (∀ v, env k = some v → loadEnvFileIfPresent env content k = some v) ∧
    (loadEnvFileIfPresent env content k ≠ env k → env k = none) := by
  constructor
  · intro v h
    exact loadEnv_preserves env (splitLines content) h
  · intro hne
    cases hk : env k with
    | none => rfl
    | some v =>
        exact absurd ((loadEnv_preserves env (splitLines content) hk).trans hk.symm) hne

/-- Witness for C10 at a concrete environment and env-file content: the variable `A`
is already set to `x` and the file line `A=y` does not overwrite it. -/
theorem env_load_preserves_existing_witness :
    loadEnvFileIfPresent (fun s => if s = "A" then some "x" else none) "A=y\nB = z" "A"
      = some "x" :=
  (env_load_preserves_existing (fun s => if s = "A" then some "x" else none)
    "A=y\nB = z" "A").1 "x" rfl

/-! ## C9: the upload CLI's file collection skips hidden entries at every depth -/

theorem collectFiles_eq_map (d : String) (es : List FsEntry) :
    collectFiles d es = (visRel es).map (fun r => d ++ "/" ++ r) := by
  induction d, es using collectFiles.induct with
  | case1 d => simp [collectFiles, visRel]
  | case2 d n rest ih =>
      simp only [collectFiles, visRel, List.map_append]
      congr 1
      split <;> simp
  | case3 d n ch rest ih1 ih2 =>
      simp only [collectFiles, visRel, List.map_append]
      rw [ih1, ih2]
      congr 1
      split
      · simp
      · simp only [List.map_map]
        congr 1
        funext r
        simp [str_append_assoc]

theorem goodName_no_slash {n : String} (h : goodNameB n = true) : ∀ c ∈ n.data, ¬(c = '/') := by
  intro c hc heq
  simp only [goodNameB, Bool.and_eq_true, Bool.not_eq_true'] at h
  have : n.data.contains '/' = true := by
    rw [List.contains_iff_exists_mem_beq]
    exact ⟨c, hc, by rw [heq]; simp⟩
  rw [h.2] at this
  exact Bool.false_ne_true this

theorem goodName_ne_empty {n : String} (h : goodNameB n = true) : n.data ≠ [] := by
  simp only [goodNameB, Bool.and_eq_true] at h
  intro hd
  exact absurd (String.ext hd : n = "") (by simpa using h.1)

theorem noSlash_noDotAfterSlash {l : List Char} (h : ∀ c ∈ l, ¬(c = '/')) :
    noDotAfterSlash l = true := by
  induction l with
  | nil => rfl
  | cons c rest ih =>
      simp only [noDotAfterSlash, Bool.and_eq_true, Bool.not_eq_true']
      refine ⟨?_, ih (fun x hx => h x (List.mem_cons_of_mem c hx))⟩
      have : ¬(c = '/') := h c (List.mem_cons_self c rest)
      simp [this]

theorem noDotAfterSlash_join {a b : List Char} (h1 : ∀ c ∈ a, ¬(c = '/'))
    (h2 : noDotAfterSlash b = true) (h3 : b.head? ≠ some '.') :
    noDotAfterSlash (a ++ '/' :: b) = true := by
  induction a with
  | nil =>
      simp only [List.nil_append, noDotAfterSlash, Bool.and_eq_true, Bool.not_eq_true']
      refine ⟨?_, h2⟩
      simp [h3]
  | cons c a' ih =>
      simp only [List.cons_append, noDotAfterSlash, Bool.and_eq_true, Bool.not_eq_true']
      refine ⟨?_, ih (fun x hx => h1 x (List.mem_cons_of_mem c hx))⟩
      have : ¬(c = '/') := h1 c (List.mem_cons_self c a')
      simp [this]

theorem startsWithDot_of_append {n t : String} (hne : n.data ≠ []) :
    strStartsWith (n ++ t) "." = strStartsWith n "." := by
  simp only [strStartsWith, str_data_append]
  cases hd : n.data with
  | nil => exact absurd hd hne
  | cons c l => simp [listIsPre]

theorem headNotDot_of_not_startsWith {r : String} (h : strStartsWith r "." = false) :
    r.data.head? ≠ some '.' := by
  intro hc
  cases hd : r.data with
  | nil => rw [hd] at hc; simp at hc
  | cons c l =>
      rw [hd] at hc
      simp only [List.head?, Option.some.injEq] at hc
      simp only [strStartsWith] at h
      rw [hd] at h
      subst hc
      simp [listIsPre] at h

theorem wfTree_file {n : String} {rest : List FsEntry} (h : wfTree (.file n :: rest) = true) :
    goodNameB n = true ∧ wfTree rest = true := by
  simp only [wfTree, Bool.and_eq_true] at h
  exact ⟨h.1.1, h.2⟩

theorem wfTree_dir {n : String} {ch rest : List FsEntry}
    (h : wfTree (.dir n ch :: rest) = true) :
    goodNameB n = true ∧ wfTree ch = true ∧ wfTree rest = true := by
  simp only [wfTree, Bool.and_eq_true] at h
  exact ⟨h.1.1.1, h.1.2, h.2⟩

theorem visRel_no_hidden (es : List FsEntry) (hwf : wfTree es = true) :
    ∀ r ∈ visRel es, strStartsWith r "." = false ∧ noDotAfterSlash r.data = true := by
  induction es using visRel.induct with
  | case1 => intro r hr; simp [visRel] at hr
  | case2 n rest ih =>
      intro r hr
      obtain ⟨hn, hrest⟩ := wfTree_file hwf
      simp only [visRel] at hr
      rcases List.mem_append.1 hr with hin | hin
      · split at hin
        · simp at hin
        · next hdot =>
            simp only [List.mem_singleton] at hin
            subst hin
            refine ⟨by simpa using hdot, ?_⟩
            exact noSlash_noDotAfterSlash (goodName_no_slash hn)
      · exact ih hrest r hin
  | case3 n ch rest ih1 ih2 =>
      intro r hr
      obtain ⟨hn, hch, hrest⟩ := wfTree_dir hwf
      simp only [visRel] at hr
      rcases List.mem_append.1 hr with hin | hin
      · split at hin
        · simp at hin
        · next hdot =>
            obtain ⟨r', hr', heq⟩ := List.mem_map.1 hin
            subst heq
            obtain ⟨hns, hnds⟩ := ih1 hch r' hr'
            constructor
            · have hne1 : (n ++ "/").data ≠ [] := by
                rw [str_data_append]
                simp
              rw [startsWithDot_of_append hne1,
                startsWithDot_of_append (goodName_ne_empty hn)]
              simpa using hdot
            · have hdata : (n ++ "/" ++ r').data = n.data ++ '/' :: r'.data := by
                rw [str_data_append, str_data_append]
                simp
              rw [hdata]
              exact noDotAfterSlash_join (goodName_no_slash hn) hnds
                (headNotDot_of_not_startsWith hns)
      · exact ih2 hrest r hin

/-- C9: the file collection of the upload CLI skips every directory entry whose name
starts with a dot, at every depth: every collected path is the walked root joined
with a relative path in which no component (neither the leading one nor any
component after a `/`) starts with `.` - so no hidden file and no file inside a
hidden directory is ever collected for upload. -/
theorem collect_skips_hidden (d : String) (es : List FsEntry) (hwf : wfTree es = true) :
    ∀ p ∈ collectFiles d es, ∃ r ∈ visRel es, p = d ++ "/" ++ r ∧
      strStartsWith r "." = false ∧ noDotAfterSlash r.data = true := by
  intro p hp
  rw [collectFiles_eq_map] at hp
  obtain ⟨r, hr, heq⟩ := List.mem_map.1 hp
  exact ⟨r, hr, heq.symm, visRel_no_hidden es hwf r hr⟩

/-- Witness for C9 on a concrete tree containing a hidden file and a hidden
directory: the one visible file is collected with a dot-free relative path. -/
theorem collect_skips_hidden_witness :
    ∃ r ∈ visRel [FsEntry.file "a.png", FsEntry.file ".DS_Store",
        FsEntry.dir ".git" [FsEntry.file "config"]],
      "public/items/a.png" = "public/items" ++ "/" ++ r ∧
      strStartsWith r "." = false ∧ noDotAfterSlash r.data = true :=
  collect_skips_hidden "public/items"
    [FsEntry.file "a.png", FsEntry.file ".DS_Store",
      FsEntry.dir ".git" [FsEntry.file "config"]]
    (by simp +decide [wfTree, goodNameB, namesContain, FsEntry.entryName])
    "public/items/a.png" (by simp +decide [collectFiles])

/-! ## C1: one upload key per visible regular file, key = prefix ++ relative path -/

theorem takeWhile_noslash {l : List Char} (h : ∀ c ∈ l, ¬(c = '/')) :
    l.takeWhile (fun c => !(c == '/')) = l := by
  induction l with
  | nil => rfl
  | cons c cs ih =>
      have hc : ¬(c = '/') := h c (List.mem_cons_self c cs)
      simp only [List.takeWhile_cons]
      rw [if_pos (by simp [hc])]
      rw [ih (fun x hx => h x (List.mem_cons_of_mem c hx))]

theorem takeWhile_noslash_append {l t : List Char} (h : ∀ c ∈ l, ¬(c = '/')) :
    (l ++ '/' :: t).takeWhile (fun c => !(c == '/')) = l := by
  induction l with
  | nil => simp [List.takeWhile_cons]
  | cons c cs ih =>
      have hc : ¬(c = '/') := h c (List.mem_cons_self c cs)
      simp only [List.cons_append, List.takeWhile_cons]
      rw [if_pos (by simp [hc])]
      rw [ih (fun x hx => h x (List.mem_cons_of_mem c hx))]

theorem firstComp_of_goodName {n : String} (h : goodNameB n = true) : firstComp n = n := by
  apply String.ext
  simpa [firstComp] using takeWhile_noslash (goodName_no_slash h)

theorem firstComp_join {n r : String} (h : goodNameB n = true) :
    firstComp (n ++ "/" ++ r) = n := by
  apply String.ext
  have hdata : (n ++ "/" ++ r).data = n.data ++ '/' :: r.data := by
    rw [str_data_append, str_data_append]
    simp
  simpa [firstComp, hdata] using takeWhile_noslash_append (goodName_no_slash h)

theorem wfTree_file_names {n : String} {rest : List FsEntry}
    (h : wfTree (.file n :: rest) = true) : namesContain rest n = false := by
  simp only [wfTree, Bool.and_eq_true, Bool.not_eq_true'] at h
  exact h.1.2

theorem wfTree_dir_names {n : String} {ch rest : List FsEntry}
    (h : wfTree (.dir n ch :: rest) = true) : namesContain rest n = false := by
  simp only [wfTree, Bool.and_eq_true, Bool.not_eq_true'] at h
  exact h.1.1.2

theorem visRel_firstComp (es : List FsEntry) (hwf : wfTree es = true) :
    ∀ r ∈ visRel es, ∃ e ∈ es, firstComp r = e.entryName := by
  induction es using visRel.induct with
  | case1 => intro r hr; simp [visRel] at hr
  | case2 n rest ih =>
      intro r hr
      obtain ⟨hn, hrest⟩ := wfTree_file hwf
      simp only [visRel] at hr
      rcases List.mem_append.1 hr with hin | hin
      · split at hin
        · simp at hin
        · simp only [List.mem_singleton] at hin
          subst hin
          exact ⟨.file r, List.mem_cons_self _ _, firstComp_of_goodName hn⟩
      · obtain ⟨e, he, hfc⟩ := ih hrest r hin
        exact ⟨e, List.mem_cons_of_mem _ he, hfc⟩
  | case3 n ch rest ih1 ih2 =>
      intro r hr
      obtain ⟨hn, _, hrest⟩ := wfTree_dir hwf
      simp only [visRel] at hr
      rcases List.mem_append.1 hr with hin | hin
      · split at hin
        · simp at hin
        · obtain ⟨r', _, heq⟩ := List.mem_map.1 hin
          subst heq
          exact ⟨.dir n ch, List.mem_cons_self _ _, firstComp_join hn⟩
      · obtain ⟨e, he, hfc⟩ := ih2 hrest r hin
        exact ⟨e, List.mem_cons_of_mem _ he, hfc⟩

theorem namesContain_of_mem {es : List FsEntry} {e : FsEntry} (he : e ∈ es) :
    namesContain es e.entryName = true := by
  simp only [namesContain, List.any_eq_true]
  exact ⟨e, he, by simp⟩

theorem visRel_nodup (es : List FsEntry) (hwf : wfTree es = true) : (visRel es).Nodup := by
  induction es using visRel.induct with
  | case1 => simp [visRel]
  | case2 n rest ih =>
      obtain ⟨hn, hrest⟩ := wfTree_file hwf
      have hnames := wfTree_file_names hwf
      simp only [visRel]
      apply List.Nodup.append
      · split <;> simp
      · exact ih hrest
      · intro x hx hx'
        split at hx
        · simp at hx
        · simp only [List.mem_singleton] at hx
          subst hx
          obtain ⟨e, he, hfc⟩ := visRel_firstComp rest hrest x hx'
          rw [firstComp_of_goodName hn] at hfc
          rw [hfc] at hnames
          rw [namesContain_of_mem he] at hnames
          simp at hnames
  | case3 n ch rest ih1 ih2 =>
      obtain ⟨hn, hch, hrest⟩ := wfTree_dir hwf
      have hnames := wfTree_dir_names hwf
      simp only [visRel]
      apply List.Nodup.append
      · split
        · simp
        · apply List.Nodup.map _ (ih1 hch)
          intro a b hab
          simp only at hab
          exact str_append_cancel_left hab
      · exact ih2 hrest
      · intro x hx hx'
        split at hx
        · simp at hx
        · obtain ⟨r', _, heq⟩ := List.mem_map.1 hx
          subst heq
          obtain ⟨e, he, hfc⟩ := visRel_firstComp rest hrest _ hx'
          rw [firstComp_join hn] at hfc
          rw [hfc] at hnames
          rw [namesContain_of_mem he] at hnames
          simp at hnames

theorem findDir_wf {tree : List FsEntry} {d : String} {ch : List FsEntry}
    (htree : wfTree tree = true) (hfd : findDir tree d = some ch) : wfTree ch = true := by
  induction tree with
  | nil => simp [findDir, List.find?] at hfd
  | cons e rest ih =>
      cases e with
      | file n =>
          obtain ⟨_, hrest⟩ := wfTree_file htree
          simp only [findDir, List.find?] at hfd
          cases hb : (FsEntry.file n).entryName == d with
          | true => rw [hb] at hfd; simp at hfd
          | false =>
              rw [hb] at hfd
              exact ih hrest (by simpa [findDir] using hfd)
      | dir n ch' =>
          obtain ⟨_, hch', hrest⟩ := wfTree_dir htree
          simp only [findDir, List.find?] at hfd
          cases hb : (FsEntry.dir n ch').entryName == d with
          | true =>
              rw [hb] at hfd
              simp only [Option.some.injEq] at hfd
              rw [← hfd]
              exact hch'
          | false =>
              rw [hb] at hfd
              exact ih hrest (by simpa [findDir] using hfd)

theorem specVisibleKeys_mem_shape {pfx : String} {ds : List String} {tree : List FsEntry}
    {k : String} (hk : k ∈ specVisibleKeys pfx ds tree) :
    ∃ d ∈ ds, ∃ ch, findDir tree d = some ch ∧
      ∃ r ∈ visRel ch, k = pfx ++ (d ++ "/" ++ r) := by
  induction ds with
  | nil => simp [specVisibleKeys] at hk
  | cons d ds ih =>
      simp only [specVisibleKeys] at hk
      rcases List.mem_append.1 hk with hin | hin
      · cases hfd : findDir tree d with
        | none => rw [hfd] at hin; simp at hin
        | some ch =>
            rw [hfd] at hin
            obtain ⟨r, hr, heq⟩ := List.mem_map.1 hin
            exact ⟨d, List.mem_cons_self _ _, ch, hfd, r, hr, heq.symm⟩
      · obtain ⟨d', hd', rest⟩ := ih hin
        exact ⟨d', List.mem_cons_of_mem _ hd', rest⟩

theorem specVisibleKeys_nodup (pfx : String) (includes : List String) (tree : List FsEntry)
    (htree : wfTree tree = true) (hnd : includes.Nodup)
    (hgood : ∀ d ∈ includes, goodNameB d = true) :
    (specVisibleKeys pfx includes tree).Nodup := by
  induction includes with
  | nil => simp [specVisibleKeys]
  | cons d ds ih =>
      simp only [specVisibleKeys]
      apply List.Nodup.append
      · cases hfd : findDir tree d with
        | none => simp
        | some ch =>
            apply List.Nodup.map _ (visRel_nodup ch (findDir_wf htree hfd))
            intro a b hab
            simp only at hab
            exact str_append_cancel_left (str_append_cancel_left hab)
      · exact ih (List.Nodup.of_cons hnd) (fun x hx => hgood x (List.mem_cons_of_mem d hx))
      · intro x hx hx'
        have hd : goodNameB d = true := hgood d (List.mem_cons_self d ds)
        obtain ⟨d', hd', ch', _, r', hr', heq'⟩ := specVisibleKeys_mem_shape hx'
        cases hfd : findDir tree d with
        | none => rw [hfd] at hx; simp at hx
        | some ch =>
            rw [hfd] at hx
            obtain ⟨r, _, heq⟩ := List.mem_map.1 hx
            have : pfx ++ (d ++ "/" ++ r) = pfx ++ (d' ++ "/" ++ r') := by rw [heq, ← heq']
            have hdd : d ++ "/" ++ r = d' ++ "/" ++ r' := str_append_cancel_left this
            have : d = d' := by
              have hfc : firstComp (d ++ "/" ++ r) = d := firstComp_join hd
              rw [hdd] at hfc
              rw [firstComp_join (hgood d' (List.mem_cons_of_mem d hd'))] at hfc
              exact hfc.symm
            subst this
            exact (List.nodup_cons.1 hnd).1 hd'

theorem relOf_join (base s : String) : relOf base (base ++ "/" ++ s) = s := by
  apply String.ext
  have hdata : (base ++ "/" ++ s).data = (base.data ++ ['/']) ++ s.data := by
    rw [str_data_append, str_data_append]
  have hlen : base.data.length + 1 = (base.data ++ ['/']).length := by simp
  simp only [relOf, hdata, hlen]
  exact List.drop_left _ _

theorem collectAll_keys (pfx base : String) (tree : List FsEntry) (includes : List String) :
    (collectAll base tree includes).map (uploadKeyOf pfx base)
      = specVisibleKeys pfx includes tree := by
  induction includes with
  | nil => rfl
  | cons d ds ih =>
      simp only [collectAll, specVisibleKeys, List.map_append]
      rw [ih]
      congr 1
      cases hfd : findDir tree d with
      | none => rfl
      | some ch =>
          show (collectFiles (base ++ "/" ++ d) ch).map (uploadKeyOf pfx base)
            = (visRel ch).map (fun r => pfx ++ (d ++ "/" ++ r))
          rw [collectFiles_eq_map, List.map_map]
          congr 1
          funext r
          show uploadKeyOf pfx base (base ++ "/" ++ d ++ "/" ++ r) = pfx ++ (d ++ "/" ++ r)
          unfold uploadKeyOf
          congr 1
          have : base ++ "/" ++ d ++ "/" ++ r = base ++ "/" ++ (d ++ "/" ++ r) := by
            rw [str_append_assoc (base ++ "/" ++ d), str_append_assoc (base ++ "/")]
            rw [str_append_assoc base, str_append_assoc base, str_append_assoc d]
          rw [this, relOf_join]

theorem uploadKeysModel_count (pfx base : String) (includes : List String)
    (tree : List FsEntry) (k : String) :
    (uploadKeysModel pfx base includes tree).count k
      = (specVisibleKeys pfx includes tree).count k := by
  unfold uploadKeysModel
  have hperm : List.Perm ((sortStrings (collectAll base tree includes)).map
      (fun p => uploadKeyOf pfx base p)) ((collectAll base tree includes).map
      (fun p => uploadKeyOf pfx base p)) :=
    (sortStrings_perm (collectAll base tree includes)).map _
  rw [hperm.count_eq]
  rw [show ((collectAll base tree includes).map (fun p => uploadKeyOf pfx base p))
      = specVisibleKeys pfx includes tree from collectAll_keys pfx base tree includes]

/-- C1 (amended): for a well-formed tree and distinct, slash-free include names,
the run's key list contains EXACTLY ONE key for every regular file that survives the
hidden-entry filter (no path component starting with `.`), and that key is the
normalized prefix concatenated with the file's path relative to the public dir with
`/` as separator.  (The original claim - one key for EVERY regular file - fails for
hidden files, see the counterexample.) -/
theorem upload_keys_visible_exactly_once (pfx base : String) (includes : List String)
    (tree : List FsEntry) (htree : wfTree tree = true) (hnd : includes.Nodup)
    (hgood : ∀ d ∈ includes, goodNameB d = true) :
    ∀ k ∈ specVisibleKeys pfx includes tree,
      (uploadKeysModel pfx base includes tree).count k = 1 := by
  intro k hk
  rw [uploadKeysModel_count]
  exact List.count_eq_one_of_mem (specVisibleKeys_nodup pfx includes tree htree hnd hgood) hk

/-- Counterexample to C1 as stated: the hidden regular file `.hidden` under the
included subdirectory `items` gets NO upload key (count 0, not 1) - `collectFiles`
skips every dot-entry, while the spec key set contains its key. -/
theorem upload_keys_claim_counterexample :
    "items/.hidden" ∈ specAllFileKeys "" ["items"]
        [FsEntry.dir "items" [FsEntry.file ".hidden"]]
    ∧ (uploadKeysModel "" "public" ["items"]
        [FsEntry.dir "items" [FsEntry.file ".hidden"]]).count "items/.hidden" = 0 := by
  constructor
  · simp +decide [specAllFileKeys, allRel, findDir, List.find?, FsEntry.entryName]
  · simp +decide [uploadKeysModel, collectAll, collectFiles, findDir, List.find?,
      FsEntry.entryName, sortStrings, sortBy]

/-- Witness for C1 (amended) on a concrete two-root tree with a nested subdirectory:
the key of the nested file appears exactly once. -/
theorem upload_keys_visible_exactly_once_witness :
    (uploadKeysModel "v1/" "public" ["blocks", "items"]
      [FsEntry.dir "items" [FsEntry.file "a.png", FsEntry.dir "sub" [FsEntry.file "b.png"]],
       FsEntry.dir "blocks" [FsEntry.file "c.png"]]).count "v1/items/sub/b.png" = 1 :=
  upload_keys_visible_exactly_once "v1/" "public" ["blocks", "items"]
    [FsEntry.dir "items" [FsEntry.file "a.png", FsEntry.dir "sub" [FsEntry.file "b.png"]],
     FsEntry.dir "blocks" [FsEntry.file "c.png"]]
    (by simp +decide [wfTree, goodNameB, namesContain, FsEntry.entryName])
    (by decide) (by decide) "v1/items/sub/b.png"
    (by simp +decide [specVisibleKeys, visRel, findDir, List.find?, FsEntry.entryName])

/-! ## C5, C6, C7: upload loop behavior (skip-existing, dry-run, exit code) -/

theorem runFiles_sum (dry skipE : Bool) (h p : String → Option S3Error) (pfx base : String)
    (files : List String) :
    (runFiles dry skipE h p pfx base files).uploaded
      + (runFiles dry skipE h p pfx base files).skipped
      + (runFiles dry skipE h p pfx base files).failed.length = files.length := by
  induction files with
  | nil => rfl
  | cons f fs ih =>
      simp only [runFiles, List.length_append, List.length_cons]
      cases (processFile dry skipE h p (uploadKeyOf pfx base f) f).2 <;> simp <;> omega

theorem processFile_dry (skipE : Bool) (h p : String → Option S3Error) (k f : String) :
    processFile true skipE h p k f = ([], .uploaded) := by
  simp [processFile]

theorem processFile_skip_head_ok (h p : String → Option S3Error) (k f : String)
    (hh : h k = none) : processFile false true h p k f = ([.head k], .skipped) := by
  simp [processFile, hh]

theorem processFile_skip_nf_put_ok (h p : String → Option S3Error) (k f : String)
    (e : S3Error) (hh : h k = some e) (hnf : isNotFoundError e = true) (hp : p k = none) :
    processFile false true h p k f = ([.head k, .put k], .uploaded) := by
  simp [processFile, hh, hnf, hp]

theorem processFile_skip_nf_put_err (h p : String → Option S3Error) (k f : String)
    (e e' : S3Error) (hh : h k = some e) (hnf : isNotFoundError e = true)
    (hp : p k = some e') :
    processFile false true h p k f = ([.head k, .put k], .failed f) := by
  simp [processFile, hh, hnf, hp]

theorem processFile_skip_other (h p : String → Option S3Error) (k f : String)
    (e : S3Error) (hh : h k = some e) (hnf : isNotFoundError e = false) :
    processFile false true h p k f = ([.head k], .failed f) := by
  simp [processFile, hh, hnf]

theorem runFiles_dry (skipE : Bool) (h p : String → Option S3Error) (pfx base : String)
    (files : List String) :
    runFiles true skipE h p pfx base files = ⟨[], files.length, 0, []⟩ := by
  induction files with
  | nil => rfl
  | cons f fs ih =>
      simp only [runFiles, ih, processFile_dry]
      simp [Nat.add_comm]

theorem runFiles_no_put_of_head_ok (h p : String → Option S3Error) (pfx base : String)
    (files : List String) (k : String) (hk : h k = none) :
    S3Call.put k ∉ (runFiles false true h p pfx base files).calls := by
  induction files with
  | nil => simp [runFiles]
  | cons f fs ih =>
      simp only [runFiles, List.mem_append]
      intro hmem
      rcases hmem with hin | hin
      · have hkf : k ≠ uploadKeyOf pfx base f ∨ k = uploadKeyOf pfx base f := by tauto
        cases hh : h (uploadKeyOf pfx base f) with
        | none =>
            rw [processFile_skip_head_ok h p _ f hh] at hin
            simp at hin
        | some e =>
            have hne : k ≠ uploadKeyOf pfx base f := by
              intro hceq
              rw [hceq, hh] at hk
              exact Option.noConfusion hk
            cases hnf : isNotFoundError e with
            | true =>
                cases hp : p (uploadKeyOf pfx base f) with
                | none =>
                    rw [processFile_skip_nf_put_ok h p _ f e hh hnf hp] at hin
                    simp only [List.mem_cons, List.mem_singleton] at hin
                    rcases hin with h1 | h1 | h1
                    · exact S3Call.noConfusion h1
                    · exact hne (by injection h1)
                    · simp at h1
                | some e' =>
                    rw [processFile_skip_nf_put_err h p _ f e e' hh hnf hp] at hin
                    simp only [List.mem_cons, List.mem_singleton] at hin
                    rcases hin with h1 | h1 | h1
                    · exact S3Call.noConfusion h1
                    · exact hne (by injection h1)
                    · simp at h1
            | false =>
                rw [processFile_skip_other h p _ f e hh hnf] at hin
                simp at hin
      · exact ih hin

theorem runFiles_skipped_count (h p : String → Option S3Error) (pfx base : String)
    (files : List String) :
    (runFiles false true h p pfx base files).skipped
      = (files.filter (fun f => (h (uploadKeyOf pfx base f)).isNone)).length := by
  induction files with
  | nil => rfl
  | cons f fs ih =>
      simp only [runFiles, List.filter_cons]
      cases hh : h (uploadKeyOf pfx base f) with
      | none =>
          rw [processFile_skip_head_ok h p _ f hh]
          simp only [Option.isNone_none, if_true]
          simp only [List.length_cons, ih]
          omega
      | some e =>
          have hfalse : (Option.some e).isNone = false := rfl
          rw [hfalse]
          simp only [Bool.false_eq_true, if_false]
          cases hnf : isNotFoundError e with
          | true =>
              cases hp : p (uploadKeyOf pfx base f) with
              | none =>
                  rw [processFile_skip_nf_put_ok h p _ f e hh hnf hp]
                  simpa using ih
              | some e' =>
                  rw [processFile_skip_nf_put_err h p _ f e e' hh hnf hp]
                  simpa using ih
          | false =>
              rw [processFile_skip_other h p _ f e hh hnf]
              simpa using ih

theorem runFiles_notfound_uploaded (h p : String → Option S3Error) (pfx base : String)
    (files : List String) (f : String) (e : S3Error)
    (hh : h (uploadKeyOf pfx base f) = some e) (hnf : isNotFoundError e = true)
    (hp : p (uploadKeyOf pfx base f) = none) :
    f ∉ (runFiles false true h p pfx base files).failed := by
  induction files with
  | nil => simp [runFiles]
  | cons g gs ih =>
      simp only [runFiles, List.mem_append]
      intro hmem
      rcases hmem with hin | hin
      · by_cases hgf : g = f
        · subst hgf
          rw [processFile_skip_nf_put_ok h p _ g e hh hnf hp] at hin
          simp at hin
        · cases hg : h (uploadKeyOf pfx base g) with
          | none =>
              rw [processFile_skip_head_ok h p _ g hg] at hin
              simp at hin
          | some e' =>
              cases hnf' : isNotFoundError e' with
              | true =>
                  cases hpg : p (uploadKeyOf pfx base g) with
                  | none =>
                      rw [processFile_skip_nf_put_ok h p _ g e' hg hnf' hpg] at hin
                      simp at hin
                  | some e'' =>
                      rw [processFile_skip_nf_put_err h p _ g e' e'' hg hnf' hpg] at hin
                      simp only [List.mem_singleton] at hin
                      exact hgf hin.symm
              | false =>
                  rw [processFile_skip_other h p _ g e' hg hnf'] at hin
                  simp only [List.mem_singleton] at hin
                  exact hgf hin.symm
      · exact ih hin

theorem runFiles_notfound_put_called (h p : String → Option S3Error) (pfx base : String)
    (files : List String) (f : String) (e : S3Error) (hf : f ∈ files)
    (hh : h (uploadKeyOf pfx base f) = some e) (hnf : isNotFoundError e = true) :
    S3Call.put (uploadKeyOf pfx base f) ∈ (runFiles false true h p pfx base files).calls := by
  induction files with
  | nil => simp at hf
  | cons g gs ih =>
      simp only [runFiles, List.mem_append]
      rcases List.mem_cons.1 hf with hgf | hgs
      · left
        subst hgf
        cases hp : p (uploadKeyOf pfx base f) with
        | none =>
            rw [processFile_skip_nf_put_ok h p _ f e hh hnf hp]
            simp
        | some e' =>
            rw [processFile_skip_nf_put_err h p _ f e e' hh hnf hp]
            simp
      · right
        exact ih hgs

/-- C6: with `--dry-run` the upload loop issues no network request at all - the call
list is empty - and the count it reports equals the number of collected files, which
is exactly the number of files any non-dry run over the same tree attempts (each
attempted file ends uploaded, skipped or failed). -/
theorem dry_run_no_calls_and_count (skipE skipE' : Bool) (pfx base : String)
    (includes : List String) (tree : List FsEntry) (h p h' p' : String → Option S3Error)
    (r r' : RunResult) (hr : runUpload true skipE pfx base includes tree h p = .ok r)
    (hr' : runUpload false skipE' pfx base includes tree h' p' = .ok r') :
    r.calls = [] ∧ r.uploaded = r.files.length ∧
    r.uploaded = r'.uploaded + r'.skipped + r'.failed.length := by
  unfold runUpload at hr hr'
  cases hco : checkRoots tree includes with
  | error e => rw [hco] at hr; simp at hr
  | ok u =>
      rw [hco] at hr hr'
      simp only [Except.ok.injEq] at hr hr'
      subst hr
      subst hr'
      refine ⟨?_, ?_, ?_⟩
      · simp [runFiles_dry]
      · simp [runFiles_dry]
      · simp only [runFiles_dry]
        exact (runFiles_sum false skipE' h' p' pfx base _).symm

/-- C5: with `--skip-existing` (and not dry-run), (a) no `PutObject` is ever issued
for a key whose `HeadObject` probe succeeds, (b) the `skipped` counter counts
exactly the files whose key's probe succeeds, and (c) a file whose probe fails with
a not-found error (HTTP 404 or name `NotFound`/`NoSuchKey`) is treated as absent:
its upload is issued, and when the upload succeeds the file is not recorded as a
failure. -/
theorem skip_existing_behavior (pfx base : String) (includes : List String)
    (tree : List FsEntry) (h p : String → Option S3Error) (r : RunResult)
    (hr : runUpload false true pfx base includes tree h p = .ok r) :
    (∀ k, h k = none → S3Call.put k ∉ r.calls) ∧
    r.skipped = (r.files.filter (fun f => (h (uploadKeyOf pfx base f)).isNone)).length ∧
    (∀ f ∈ r.files, ∀ e, h (uploadKeyOf pfx base f) = some e → isNotFoundError e = true →
      p (uploadKeyOf pfx base f) = none →
      S3Call.put (uploadKeyOf pfx base f) ∈ r.calls ∧ f ∉ r.failed) := by
  unfold runUpload at hr
  cases hco : checkRoots tree includes with
  | error e => rw [hco] at hr; simp at hr
  | ok u =>
      rw [hco] at hr
      simp only [Except.ok.injEq] at hr
      subst hr
      refine ⟨?_, ?_, ?_⟩
      · intro k hk
        exact runFiles_no_put_of_head_ok h p pfx base _ k hk
      · exact runFiles_skipped_count h p pfx base _
      · intro f hf e hh hnf hp
        exact ⟨runFiles_notfound_put_called h p pfx base _ f e hf hh hnf,
          runFiles_notfound_uploaded h p pfx base _ f e hh hnf hp⟩

/-- Counterexample to C7 as stated ("exit 1 IFF a file failed to upload, 0
otherwise"): when an include directory is missing, `main` throws before uploading
anything and the top-level `main().catch` sets exit code 1 - so the process exits 1
with zero failed uploads. -/
theorem exit_code_claim_counterexample :
    exitCodeOf (runUpload false false "" "public" ["blocks"] []
        (fun _ => none) (fun _ => none)) = 1
    ∧ failedUploads (runUpload false false "" "public" ["blocks"] []
        (fun _ => none) (fun _ => none)) = 0 := by
  constructor <;> rfl

/-- C7 (amended): when setup succeeds (options valid, every include directory
exists) and the run completes, the process exits 1 exactly when at least one file
failed to upload and 0 exactly when none did; any setup error also exits 1 (via the
top-level catch), even with zero failed uploads. -/
theorem exit_code_iff_failed_after_setup (dry skipE : Bool) (pfx base : String)
    (includes : List String) (tree : List FsEntry) (h p : String → Option S3Error)
    (r : RunResult) (hr : runUpload dry skipE pfx base includes tree h p = .ok r) :
    (exitCodeOf (runUpload dry skipE pfx base includes tree h p) = 1 ↔ r.failed ≠ []) ∧
    (exitCodeOf (runUpload dry skipE pfx base includes tree h p) = 0 ↔ r.failed = []) := by
  rw [hr]
  simp only [exitCodeOf]
  constructor
  · constructor
    · intro h1 hemp
      rw [hemp] at h1
      simp at h1
    · intro hne
      rw [if_pos (List.length_pos.2 hne)]
  · constructor
    · intro h0
      by_contra hne
      rw [if_pos (List.length_pos.2 hne)] at h0
      exact absurd h0 (by simp)
    · intro hemp
      rw [hemp]
      simp

/-- Witness for C6 at a concrete one-file tree: the dry run issues no calls and
reports the same count (1) that the real run attempts. -/
theorem dry_run_no_calls_and_count_witness :
    ([] : List S3Call) = [] ∧ (1 : Nat) = ["public/d/a"].length ∧ (1 : Nat) = 1 + 0 + 0 :=
  dry_run_no_calls_and_count false false "" "public" ["d"]
    [FsEntry.dir "d" [FsEntry.file "a"]] (fun _ => none) (fun _ => none)
    (fun _ => none) (fun _ => none)
    ⟨[], 1, 0, [], ["public/d/a"]⟩ ⟨[.put "d/a"], 1, 0, [], ["public/d/a"]⟩
    (by simp +decide [runUpload, checkRoots, findDir, List.find?, FsEntry.entryName,
      collectAll, collectFiles, sortStrings, sortBy, insertBy, runFiles, processFile,
      uploadKeyOf, relOf])
    (by simp +decide [runUpload, checkRoots, findDir, List.find?, FsEntry.entryName,
      collectAll, collectFiles, sortStrings, sortBy, insertBy, runFiles, processFile,
      uploadKeyOf, relOf])

/-- Witness for C5 at a concrete two-file tree where `d/a` already exists in storage
and `d/b` probes 404: the upload of `d/b` is issued and `d/b` is not recorded as a
failure. -/
theorem skip_existing_behavior_witness :
    S3Call.put "d/b" ∈ [S3Call.head "d/a", S3Call.head "d/b", S3Call.put "d/b"]
    ∧ "public/d/b" ∉ ([] : List String) :=
  (skip_existing_behavior "" "public" ["d"]
    [FsEntry.dir "d" [FsEntry.file "a", FsEntry.file "b"]]
    (fun k => if k = "d/a" then none else some ⟨some 404, some "NotFound"⟩)
    (fun _ => none)
    ⟨[.head "d/a", .head "d/b", .put "d/b"], 1, 1, [], ["public/d/a", "public/d/b"]⟩
    (by simp +decide [runUpload, checkRoots, findDir, List.find?, FsEntry.entryName,
      collectAll, collectFiles, sortStrings, sortBy, insertBy, runFiles, processFile,
      uploadKeyOf, relOf, isNotFoundError])).2.2
    "public/d/b" (by decide) ⟨some 404, some "NotFound"⟩ (by decide) (by decide) rfl

/-- Witness for C7 (amended) at a concrete run where the single upload fails: the
process exits 1. -/
theorem exit_code_iff_failed_after_setup_witness :
    exitCodeOf (runUpload false false "" "public" ["d"] [FsEntry.dir "d" [FsEntry.file "a"]]
      (fun _ => none) (fun _ => some ⟨none, some "InternalError"⟩)) = 1 :=
  (exit_code_iff_failed_after_setup false false "" "public" ["d"]
    [FsEntry.dir "d" [FsEntry.file "a"]] (fun _ => none)
    (fun _ => some ⟨none, some "InternalError"⟩)
    ⟨[.put "d/a"], 0, 0, ["public/d/a"], ["public/d/a"]⟩
    (by simp +decide [runUpload, checkRoots, findDir, List.find?, FsEntry.entryName,
      collectAll, collectFiles, sortStrings, sortBy, insertBy, runFiles, processFile,
      uploadKeyOf, relOf])).1.mpr (by decide)

/-! ## C4: stack size range -/

/-- Counterexample to C4 as stated: a Stackable text of `"128"` produces an Item
record with `stackSize = 128 > 64` - `getStackSize` echoes the parsed number with no
range check, and `getItemDetails` uses it verbatim. -/
theorem stack_size_claim_counterexample :
    getItemDetailsModel "Anvil" "anvil" "desc" "img" true (some "128")
      = .ok ⟨"Anvil", "anvil", "desc", "img", true, 128⟩
    ∧ ¬((128 : Int) ≤ 64) := by
  constructor
  · rfl
  · decide

/-- C4 (amended): every special-page record's stack size lies in `[1, 64]`; a
regular item's record carries `getStackSize`'s value verbatim, and that value is
`1` (non-stackable or the Pufferfish exception), `64` (a `"Yes,"` text with no
digits), or a number extracted verbatim from the page's Stackable text with no
range check - so `[1, 64]` holds only when the page's number lies in it. -/
theorem stack_size_values_characterized :
    (∀ sp ∈ specialItemPages, 1 ≤ sp.stackSize ∧ sp.stackSize ≤ 64) ∧
    (∀ name namespacedId description image renewable stackText it,
      getItemDetailsModel name namespacedId description image renewable stackText = .ok it →
      getStackSize name stackText = some it.stackSize) ∧
    (∀ name raw s, getStackSize name raw = some s →
      s = 1 ∨ s = 64 ∨ ∃ t, raw = some t ∧ s ∈ stackCandidates (strTrim t).data) := by
  refine ⟨?_, ?_, ?_⟩
  · intro sp hsp
    simp only [specialItemPages, List.mem_cons, List.not_mem_nil, or_false] at hsp
    rcases hsp with rfl | rfl | rfl | rfl | rfl | rfl | rfl | rfl | rfl <;> norm_num
  · intro name namespacedId description image renewable stackText it h
    unfold getItemDetailsModel at h
    cases hs : getItemDetailsStackSize name stackText with
    | error e => rw [hs] at h; exact Except.noConfusion h
    | ok s =>
        rw [hs] at h
        simp only [Except.ok.injEq] at h
        unfold getItemDetailsStackSize at hs
        cases hg : getStackSize name stackText with
        | none => rw [hg] at hs; exact Except.noConfusion hs
        | some s' =>
            rw [hg] at hs
            simp only [Except.ok.injEq] at hs
            rw [← h]
            rw [hs]
  · intro name raw s h
    unfold getStackSize at h
    by_cases hex : (["Pufferfish"] : List String).contains name = true
    · rw [if_pos hex] at h
      left
      injection h with h
      exact h.symm
    · rw [if_neg hex] at h
      cases raw with
      | none => exact Option.noConfusion h
      | some t =>
          dsimp only at h
          by_cases hno : (strTrim t == "No" || strContains (strTrim t) "JE: No") = true
          · rw [if_pos hno] at h
            left
            injection h with h
            exact h.symm
          · rw [if_neg hno] at h
            by_cases hyes : strStartsWith (strTrim t) "Yes," = true
            · rw [if_pos hyes] at h
              cases hfd : firstDigitRun (strTrim t).data with
              | none =>
                  rw [hfd] at h
                  right
                  left
                  injection h with h
                  exact h.symm
              | some run =>
                  rw [hfd] at h
                  right
                  right
                  refine ⟨t, rfl, ?_⟩
                  injection h with h
                  rw [← h]
                  simp [stackCandidates, hfd]
            · rw [if_neg hyes] at h
              cases hpn : parenNumber (strTrim t).data with
              | some n =>
                  rw [hpn] at h
                  right
                  right
                  refine ⟨t, rfl, ?_⟩
                  injection h with h
                  rw [← h]
                  simp [stackCandidates, hpn]
              | none =>
                  rw [hpn] at h
                  cases hpi : jsParseInt (strTrim t).data with
                  | some i =>
                      rw [hpi] at h
                      right
                      right
                      refine ⟨t, rfl, ?_⟩
                      injection h with h
                      rw [← h]
                      simp [stackCandidates, hpi]
                  | none => rw [hpi] at h; exact Option.noConfusion h

/-- Witness for C4 (amended) at the concrete Stackable text `"64"`: the value 64 is
extracted verbatim. -/
theorem stack_size_values_characterized_witness :
    (64 : Int) = 1 ∨ (64 : Int) = 64
      ∨ ∃ t, (some "64" : Option String) = some t
          ∧ (64 : Int) ∈ stackCandidates (strTrim t).data :=
  stack_size_values_characterized.2.2 "Cake" (some "64") 64 rfl

/-! ## C3: namespacedId uniqueness -/

/-- Counterexample to C3: the Map special page yields two records (`filter i < 2`),
and `processSpecialItemPage` stamps BOTH with the page's default namespaced id
`filled_map`, so the produced collection has a duplicated `namespacedId`. -/
theorem namespacedId_unique_counterexample :
    ((processSpecialItemPage "Map" (some "filled_map") 64 (fun _ => true) "desc"
        (fun _ => true)
        [("Map", some "map.png"), ("Empty Map", some "empty_map.png")]).1.map
      Item.namespacedId) = ["filled_map", "filled_map"]
    ∧ ¬ ((processSpecialItemPage "Map" (some "filled_map") 64 (fun _ => true) "desc"
        (fun _ => true)
        [("Map", some "map.png"), ("Empty Map", some "empty_map.png")]).1.map
      Item.namespacedId).Nodup := by
  constructor
  · rfl
  · decide

/-- C3 (amended): `namespacedId` is NOT unique in the produced items collection -
every record produced from a given special page other than `Music_Disc` carries
that page's default namespaced id (the empty string when the default is null), so
any special page yielding two or more records yields duplicates; the script
deduplicates regular rows only by display name against the initial collection. -/
theorem special_page_shares_namespacedId (pageName : String) (defaultId : Option String)
    (stackSize : Int) (ren : String → Bool) (desc : String) (dl : String → Bool)
    (itemsData : List (String × Option String)) (hpage : pageName ≠ "Music_Disc") :
    ∀ it ∈ (processSpecialItemPage pageName defaultId stackSize ren desc dl itemsData).1,
      it.namespacedId = defaultId.getD "" := by
  have hbeq : (pageName == "Music_Disc") = false := by
    simp [hpage]
  induction itemsData with
  | nil => intro it hit; simp [processSpecialItemPage] at hit
  | cons d rest ih =>
      intro it hit
      obtain ⟨name0, imageUrl⟩ := d
      simp only [processSpecialItemPage, hbeq, Bool.false_eq_true, if_false] at hit
      cases imageUrl with
      | none => exact ih it hit
      | some url =>
          dsimp only at hit
          by_cases hdl : dl url = true
          · rw [if_pos hdl] at hit
            rcases List.mem_cons.1 hit with heq | hmem
            · rw [heq]
            · exact ih it hmem
          · rw [if_neg hdl] at hit
            exact ih it hit

/-- Witness for C3 (amended): the first record of the concrete Map page carries the
page default `filled_map`. -/
theorem special_page_shares_namespacedId_witness :
    Item.namespacedId
      ⟨"Map", "filled_map", "desc", "https://mc.geertvandrunen.nl/_new/items/map.png",
        true, 64⟩ = (some "filled_map").getD "" :=
  special_page_shares_namespacedId "Map" (some "filled_map") 64 (fun _ => true) "desc"
    (fun _ => true) [("Map", some "map.png"), ("Empty Map", some "empty_map.png")]
    (by decide)
    ⟨"Map", "filled_map", "desc", "https://mc.geertvandrunen.nl/_new/items/map.png",
      true, 64⟩
    (by decide)

/-! ## C8: per-item error handling of the scrapers -/

theorem errLookup_mem {m : List (String × ItemErrorEntry)} {k : String} {e : ItemErrorEntry}
    (h : errLookup m k = some e) : (k, e) ∈ m := by
  induction m with
  | nil => exact Option.noConfusion h
  | cons kv rest ih =>
      simp only [errLookup] at h
      by_cases hk : kv.1 = k
      · rw [if_pos hk] at h
        injection h with h
        subst hk
        subst h
        simp
      · rw [if_neg hk] at h
        exact List.mem_cons_of_mem kv (ih h)

theorem errLookup_map_upd (f : ItemErrorEntry → ItemErrorEntry)
    (m : List (String × ItemErrorEntry)) (key : String) (e0 : ItemErrorEntry)
    (h : errLookup m key = some e0) :
    errLookup (m.map (fun kv => if kv.1 = key then (kv.1, f kv.2) else kv)) key
      = some (f e0) := by
  induction m with
  | nil => exact Option.noConfusion h
  | cons kv rest ih =>
      simp only [errLookup] at h
      simp only [List.map_cons]
      by_cases hk : kv.1 = key
      · rw [if_pos hk] at h
        injection h with h
        simp [errLookup, hk, h]
      · rw [if_neg hk] at h
        simp only [if_neg hk, errLookup]
        exact ih h

theorem errLookup_map_ne (f : ItemErrorEntry → ItemErrorEntry)
    (m : List (String × ItemErrorEntry)) (key k : String) (hne : ¬(k = key)) :
    errLookup (m.map (fun kv => if kv.1 = key then (kv.1, f kv.2) else kv)) k
      = errLookup m k := by
  induction m with
  | nil => rfl
  | cons kv rest ih =>
      simp only [List.map_cons, errLookup]
      by_cases hk : kv.1 = key
      · rw [if_pos hk]
        have hnvk : ¬(kv.1 = k) := by rw [hk]; intro hc; exact hne hc.symm
        dsimp only
        rw [if_neg hnvk, if_neg hnvk]
        exact ih
      · rw [if_neg hk]
        by_cases hvk : kv.1 = k
        · rw [if_pos hvk, if_pos hvk]
        · rw [if_neg hvk, if_neg hvk]
          exact ih

theorem errLookup_append (m l : List (String × ItemErrorEntry)) (k : String) :
    errLookup (m ++ l) k
      = match errLookup m k with
        | some e => some e
        | none => errLookup l k := by
  induction m with
  | nil => simp [errLookup]
  | cons kv rest ih =>
      simp only [List.cons_append, errLookup]
      by_cases hk : kv.1 = k
      · rw [if_pos hk, if_pos hk]
      · rw [if_neg hk, if_neg hk]
        exact ih

/-- A key that maps to an entry with at least one recorded error. -/
def hasErr (m : List (String × ItemErrorEntry)) (k : String) : Prop :=
  ∃ e, errLookup m k = some e ∧ e.errors ≠ []

theorem record_lookup_self (m : List (String × ItemErrorEntry))
    (cat stage name : String) (ns url : Option String) (msg : String) :
    hasErr (recordItemError m cat stage name ns url msg) (cat ++ ":" ++ name) := by
  cases h0 : errLookup m (cat ++ ":" ++ name) with
  | some e0 =>
      unfold recordItemError
      dsimp only
      rw [h0]
      refine ⟨_, errLookup_map_upd
        (fun e => { e with
          errors := e.errors ++ [⟨stage, msg⟩]
          namespacedId := if !jsTruthy e.namespacedId && jsTruthy ns then ns else e.namespacedId
          url := if !jsTruthy e.url && jsTruthy url then url else e.url })
        m (cat ++ ":" ++ name) e0 h0, ?_⟩
      simp
  | none =>
      unfold recordItemError
      dsimp only
      rw [h0]
      refine ⟨⟨cat, name, ns, url, [⟨stage, msg⟩]⟩, ?_, by simp⟩
      rw [errLookup_append, h0]
      simp [errLookup]

theorem record_lookup_other (m : List (String × ItemErrorEntry))
    (cat stage name : String) (ns url : Option String) (msg k : String)
    (hk : ¬(k = cat ++ ":" ++ name)) :
    errLookup (recordItemError m cat stage name ns url msg) k = errLookup m k := by
  cases h0 : errLookup m (cat ++ ":" ++ name) with
  | some e0 =>
      unfold recordItemError
      dsimp only
      rw [h0]
      exact errLookup_map_ne
        (fun e => { e with
          errors := e.errors ++ [⟨stage, msg⟩]
          namespacedId := if !jsTruthy e.namespacedId && jsTruthy ns then ns else e.namespacedId
          url := if !jsTruthy e.url && jsTruthy url then url else e.url })
        m (cat ++ ":" ++ name) k hk
  | none =>
      unfold recordItemError
      dsimp only
      rw [h0]
      rw [errLookup_append]
      cases hmk : errLookup m k with
      | some e => rfl
      | none =>
          simp only [errLookup]
          rw [if_neg (by intro hc; exact hk hc.symm)]

theorem record_preserves_hasErr (m : List (String × ItemErrorEntry))
    (cat stage name : String) (ns url : Option String) (msg k : String)
    (h : hasErr m k) : hasErr (recordItemError m cat stage name ns url msg) k := by
  by_cases hk : k = cat ++ ":" ++ name
  · rw [hk]
    exact record_lookup_self m cat stage name ns url msg
  · obtain ⟨e, he, hne⟩ := h
    exact ⟨e, by rw [record_lookup_other m cat stage name ns url msg k hk]; exact he, hne⟩

theorem populate_preserves_hasErr (st : ItemsState) (row : RegRow) (k : String)
    (h : hasErr st.errored k) : hasErr (populateItemsJson st row).errored k := by
  unfold populateItemsJson
  cases row.nsRes with
  | error e => exact record_preserves_hasErr _ _ _ _ _ _ _ _ h
  | ok nsid =>
      cases row.urlRes with
      | error e => exact record_preserves_hasErr _ _ _ _ _ _ _ _ h
      | ok url =>
          cases row.detRes with
          | error e => exact record_preserves_hasErr _ _ _ _ _ _ _ _ h
          | ok item => exact h

theorem processRegular_preserves_hasErr (names0 : List String) (rows : List RegRow)
    (st : ItemsState) (k : String) (h : hasErr st.errored k) :
    hasErr (processRegularItems names0 st rows).errored k := by
  induction rows generalizing st with
  | nil => exact h
  | cons row rest ih =>
      simp only [processRegularItems]
      by_cases hs : shouldProcessItem names0 row.name = true
      · rw [if_pos hs]
        exact ih _ (populate_preserves_hasErr st row k h)
      · rw [if_neg hs]
        exact ih _ h

theorem populate_establishes (st : ItemsState) (row : RegRow)
    (herr : rowErrs row = true) :
    hasErr (populateItemsJson st row).errored ("regular" ++ ":" ++ row.name) := by
  unfold populateItemsJson
  cases hns : row.nsRes with
  | error e => exact record_lookup_self _ _ _ _ _ _ _
  | ok nsid =>
      cases hurl : row.urlRes with
      | error e => exact record_lookup_self _ _ _ _ _ _ _
      | ok url =>
          cases hdet : row.detRes with
          | error e => exact record_lookup_self _ _ _ _ _ _ _
          | ok item =>
              exfalso
              unfold rowErrs at herr
              rw [hns, hurl, hdet] at herr
              simp [Except.toOption] at herr

/-- Every recorded entry carries category `regular` and is keyed by
`"regular:" ++ name` (invariant of the regular-items pass). -/
def regNamed (m : List (String × ItemErrorEntry)) : Prop :=
  ∀ kv ∈ m, kv.2.category = "regular" ∧ kv.1 = "regular" ++ ":" ++ kv.2.name

theorem record_preserves_regNamed (m : List (String × ItemErrorEntry))
    (stage name : String) (ns url : Option String) (msg : String) (h : regNamed m) :
    regNamed (recordItemError m "regular" stage name ns url msg) := by
  cases h0 : errLookup m ("regular" ++ ":" ++ name) with
  | some e0 =>
      unfold recordItemError
      dsimp only
      rw [h0]
      intro kv hkv
      obtain ⟨kv0, hkv0, heq⟩ := List.mem_map.1 hkv
      obtain ⟨hc0, hk0⟩ := h kv0 hkv0
      by_cases hk : kv0.1 = "regular" ++ ":" ++ name
      · rw [if_pos hk] at heq
        rw [← heq]
        exact ⟨hc0, hk0⟩
      · rw [if_neg hk] at heq
        rw [← heq]
        exact ⟨hc0, hk0⟩
  | none =>
      unfold recordItemError
      dsimp only
      rw [h0]
      intro kv hkv
      rcases List.mem_append.1 hkv with hin | hin
      · exact h kv hin
      · simp only [List.mem_singleton] at hin
        rw [hin]
        exact ⟨rfl, rfl⟩

theorem populate_preserves_regNamed (st : ItemsState) (row : RegRow)
    (h : regNamed st.errored) : regNamed (populateItemsJson st row).errored := by
  unfold populateItemsJson
  cases row.nsRes with
  | error e => exact record_preserves_regNamed _ _ _ _ _ _ h
  | ok nsid =>
      cases row.urlRes with
      | error e => exact record_preserves_regNamed _ _ _ _ _ _ h
      | ok url =>
          cases row.detRes with
          | error e => exact record_preserves_regNamed _ _ _ _ _ _ h
          | ok item => exact h

theorem processRegular_preserves_regNamed (names0 : List String) (rows : List RegRow)
    (st : ItemsState) (h : regNamed st.errored) :
    regNamed (processRegularItems names0 st rows).errored := by
  induction rows generalizing st with
  | nil => exact h
  | cons row rest ih =>
      simp only [processRegularItems]
      by_cases hs : shouldProcessItem names0 row.name = true
      · rw [if_pos hs]
        exact ih _ (populate_preserves_regNamed st row h)
      · rw [if_neg hs]
        exact ih _ h

theorem processRegular_err_recorded (names0 : List String) (rows : List RegRow)
    (st : ItemsState) (row : RegRow) (hrow : row ∈ rows)
    (hs : shouldProcessItem names0 row.name = true) (herr : rowErrs row = true) :
    hasErr (processRegularItems names0 st rows).errored ("regular" ++ ":" ++ row.name) := by
  induction rows generalizing st with
  | nil => simp at hrow
  | cons r rest ih =>
      simp only [processRegularItems]
      rcases List.mem_cons.1 hrow with heq | hmem
      · subst heq
        rw [if_pos hs]
        exact processRegular_preserves_hasErr names0 rest _ _ (populate_establishes st row herr)
      · by_cases hsr : shouldProcessItem names0 r.name = true
        · rw [if_pos hsr]
          exact ih _ hmem
        · rw [if_neg hsr]
          exact ih _ hmem

theorem populate_items_mono (st : ItemsState) (row : RegRow) (it : Item)
    (h : it ∈ st.items) : it ∈ (populateItemsJson st row).items := by
  unfold populateItemsJson
  cases row.nsRes with
  | error e => exact h
  | ok nsid =>
      cases row.urlRes with
      | error e => exact h
      | ok url =>
          cases row.detRes with
          | error e => exact h
          | ok item => exact List.mem_append_left _ h

theorem processRegular_items_mono (names0 : List String) (rows : List RegRow)
    (st : ItemsState) (it : Item) (h : it ∈ st.items) :
    it ∈ (processRegularItems names0 st rows).items := by
  induction rows generalizing st with
  | nil => exact h
  | cons row rest ih =>
      simp only [processRegularItems]
      by_cases hs : shouldProcessItem names0 row.name = true
      · rw [if_pos hs]
        exact ih _ (populate_items_mono st row it h)
      · rw [if_neg hs]
        exact ih _ h

theorem processRegular_ok_item (names0 : List String) (rows : List RegRow)
    (st : ItemsState) (row : RegRow) (hrow : row ∈ rows)
    (hs : shouldProcessItem names0 row.name = true) (ns url : String) (it : Item)
    (h1 : row.nsRes = .ok ns) (h2 : row.urlRes = .ok url) (h3 : row.detRes = .ok it) :
    it ∈ (processRegularItems names0 st rows).items := by
  induction rows generalizing st with
  | nil => simp at hrow
  | cons r rest ih =>
      simp only [processRegularItems]
      rcases List.mem_cons.1 hrow with heq | hmem
      · subst heq
        rw [if_pos hs]
        apply processRegular_items_mono
        unfold populateItemsJson
        rw [h1, h2, h3]
        exact List.mem_append_right _ (List.mem_singleton.2 rfl)
      · by_cases hsr : shouldProcessItem names0 r.name = true
        · rw [if_pos hsr]
          exact ih _ hmem
        · rw [if_neg hsr]
          exact ih _ hmem

theorem report_contains (m : List (String × ItemErrorEntry)) (k : String)
    (e : ItemErrorEntry) (h : errLookup m k = some e) :
    ∃ es txt, writeErroredItemsReport m = some (es, txt) ∧ e ∈ es ∧
      e.name ∈ es.map ItemErrorEntry.name := by
  have hmem : (k, e) ∈ m := errLookup_mem h
  have h2 : e ∈ m.map Prod.snd := List.mem_map.2 ⟨(k, e), hmem, rfl⟩
  have h3 : e ∈ sortBy entryLe (m.map Prod.snd) := ((sortBy_perm entryLe _).mem_iff).2 h2
  unfold writeErroredItemsReport
  rw [if_neg (by
    intro hz
    rw [List.length_eq_zero] at hz
    rw [hz] at h3
    simp at h3)]
  exact ⟨_, _, rfl, h3, List.mem_map.2 ⟨e, h3, rfl⟩⟩

theorem runBlocksRow_processed (st : BlocksResult) (n : String) (s : BlockRowSim) :
    (runBlocksRow st n s).processed = st.processed + 1 := by
  cases s <;> rfl

theorem runBlocksRow_rejections_mono (st : BlocksResult) (n : String) (s : BlockRowSim)
    (x : String) (h : x ∈ st.unhandledRejections) :
    x ∈ (runBlocksRow st n s).unhandledRejections := by
  cases s <;> first
    | exact h
    | exact List.mem_append_left _ h

theorem runBlocks_aux_processed (rows : List (String × BlockRowSim)) (st : BlocksResult) :
    (rows.foldl (fun st r => runBlocksRow st r.1 r.2) st).processed
      = st.processed + rows.length := by
  induction rows generalizing st with
  | nil => rfl
  | cons r rest ih =>
      simp only [List.foldl_cons, ih, runBlocksRow_processed, List.length_cons]
      omega

theorem runBlocks_aux_fails (rows : List (String × BlockRowSim)) (st : BlocksResult)
    (n msg : String) (h : (n, BlockRowSim.fails msg) ∈ rows ∨ n ∈ st.unhandledRejections) :
    n ∈ (rows.foldl (fun st r => runBlocksRow st r.1 r.2) st).unhandledRejections := by
  induction rows generalizing st with
  | nil =>
      rcases h with h | h
      · simp at h
      · exact h
  | cons r rest ih =>
      simp only [List.foldl_cons]
      rcases h with h | h
      · rcases List.mem_cons.1 h with heq | hmem
        · apply ih
          right
          rw [← heq]
          simp [runBlocksRow]
        · exact ih _ (Or.inl hmem)
      · exact ih _ (Or.inr (runBlocksRow_rejections_mono st r.1 r.2 n h))

/-- Counterexample to C8 as stated: in the blocks script, a row whose processing
throws is caught and logged, but the error is RECORDED NOWHERE (neither in the
result list nor in `notfoundlist` - the blocks script writes no error report), and
the handler evaluates `Promise.reject(e)` - a dangling rejected promise the source
comments with "stop the script if an error occurs", which under Node's default
unhandled-rejection policy terminates the process.  So "recorded ... and the batch
does not abort" fails for blocks. -/
theorem error_handling_claim_counterexample :
    ¬ blocksNeverAbort [("Stone", .fails "network timeout"), ("Dirt", .ok)]
    ∧ (runBlocks [("Stone", .fails "network timeout"), ("Dirt", .ok)]).notfound = []
    ∧ (runBlocks [("Stone", .fails "network timeout"), ("Dirt", .ok)]).blocks = ["Dirt"] := by
  refine ⟨?_, rfl, rfl⟩
  intro h
  simp only [blocksNeverAbort] at h
  exact absurd h (by decide)

/-- C8 (amended): in the ITEMS script every failing row (any scraping stage throws)
is caught, recorded in the error map under `"regular:" ++ name` with a non-empty
error list and the row's own name, and lands in the written report (JSON entries
and the plain-text name list); processing never aborts: every successful row's
record is still added.  In the BLOCKS script the per-row handler catches errors and
the loop itself continues through all rows, but each error only leaves a dangling
rejected promise (see the counterexample). -/
theorem items_errors_recorded_batch_continues (names0 : List String) (items0 : List Item)
    (rows : List RegRow) :
    (∀ row ∈ rows, shouldProcessItem names0 row.name = true → rowErrs row = true →
      ∃ e, errLookup (processRegularItems names0 ⟨items0, []⟩ rows).errored
          ("regular" ++ ":" ++ row.name) = some e ∧ e.errors ≠ [] ∧ e.name = row.name ∧
        ∃ es txt, writeErroredItemsReport
            (processRegularItems names0 ⟨items0, []⟩ rows).errored = some (es, txt) ∧
          e ∈ es ∧ e.name ∈ es.map ItemErrorEntry.name) ∧
    (∀ row ∈ rows, shouldProcessItem names0 row.name = true →
      ∀ ns url it, row.nsRes = .ok ns → row.urlRes = .ok url → row.detRes = .ok it →
        it ∈ (processRegularItems names0 ⟨items0, []⟩ rows).items) ∧
    (∀ brows : List (String × BlockRowSim),
      (runBlocks brows).processed = brows.length ∧
      ∀ nb ∈ brows, ∀ msg, nb.2 = .fails msg →
        nb.1 ∈ (runBlocks brows).unhandledRejections) := by
  refine ⟨?_, ?_, ?_⟩
  · intro row hrow hs herr
    obtain ⟨e, he, hne⟩ :=
      processRegular_err_recorded names0 rows ⟨items0, []⟩ row hrow hs herr
    have hreg : regNamed (processRegularItems names0 ⟨items0, []⟩ rows).errored :=
      processRegular_preserves_regNamed names0 rows ⟨items0, []⟩ (by
        intro kv hkv
        simp at hkv)
    have hname : e.name = row.name := by
      have hmem := errLookup_mem he
      have hkey := (hreg _ hmem).2
      simp only at hkey
      exact (str_append_cancel_left hkey).symm
    obtain ⟨es, txt, hw, hes, hnm⟩ :=
      report_contains (processRegularItems names0 ⟨items0, []⟩ rows).errored
        ("regular" ++ ":" ++ row.name) e he
    exact ⟨e, he, hne, hname, es, txt, hw, hes, hnm⟩
  · intro row hrow hs ns url it h1 h2 h3
    exact processRegular_ok_item names0 rows ⟨items0, []⟩ row hrow hs ns url it h1 h2 h3
  · intro brows
    refine ⟨?_, ?_⟩
    · unfold runBlocks
      rw [runBlocks_aux_processed]
      simp
    · intro nb hnb msg hmsg
      unfold runBlocks
      apply runBlocks_aux_fails
      left
      have : nb = (nb.1, BlockRowSim.fails msg) := by
        obtain ⟨n1, s1⟩ := nb
        simp only at hmsg
        rw [hmsg]
      rw [← this]
      exact hnb

/-- Witness for C8 (amended) at a concrete pair of rows - one failing, one
succeeding: the successful row's record is in the final items list even though the
first row errored. -/
theorem items_errors_recorded_batch_continues_witness :
    (⟨"Dirt", "dirt", "d", "i", true, 64⟩ : Item)
      ∈ (processRegularItems [] ⟨[], []⟩
        [⟨"Stone", .error "selector timeout", .error "skipped", .error "skipped"⟩,
         ⟨"Dirt", .ok "dirt", .ok "https://minecraft.wiki/w/Dirt",
           .ok ⟨"Dirt", "dirt", "d", "i", true, 64⟩⟩]).items :=
  (items_errors_recorded_batch_continues [] []
    [⟨"Stone", .error "selector timeout", .error "skipped", .error "skipped"⟩,
     ⟨"Dirt", .ok "dirt", .ok "https://minecraft.wiki/w/Dirt",
       .ok ⟨"Dirt", "dirt", "d", "i", true, 64⟩⟩]).2.1
    ⟨"Dirt", .ok "dirt", .ok "https://minecraft.wiki/w/Dirt",
      .ok ⟨"Dirt", "dirt", "d", "i", true, 64⟩⟩
    (List.mem_cons_of_mem _ (List.mem_cons_self _ _)) rfl
    "dirt" "https://minecraft.wiki/w/Dirt" ⟨"Dirt", "dirt", "d", "i", true, 64⟩
    rfl rfl rfl

/-! ## C2: recipe grid invariant -/

theorem collectTitles_length (vs : List RecVariant) (ts : List (Option String))
    (h : collectTitles vs = .ok ts) : ts.length = vs.length := by
  induction vs generalizing ts with
  | nil =>
      simp only [collectTitles] at h
      injection h with h
      subst h
      rfl
  | cons v rest ih =>
      simp only [collectTitles] at h
      cases hv : variantTitle v with
      | error e => rw [hv] at h; exact Except.noConfusion h
      | ok t =>
          rw [hv] at h
          cases hr : collectTitles rest with
          | error e => rw [hr] at h; exact Except.noConfusion h
          | ok ts' =>
              rw [hr] at h
              dsimp only at h
              injection h with h
              subst h
              simp [ih ts' hr]

theorem tileSlot_ok (total index : Nat) (variants : List RecVariant) (s : Slot)
    (h : tileSlot total index variants = .ok s) : slotNonEmptyOK s := by
  cases variants with
  | nil =>
      simp only [tileSlot] at h
      injection h with h
      rw [← h]
      trivial
  | cons v vs =>
      cases vs with
      | nil =>
          simp only [tileSlot] at h
          cases hl : v.link with
          | none => rw [hl] at h; exact Except.noConfusion h
          | some t =>
              rw [hl] at h
              cases t with
              | none =>
                  dsimp only at h
                  injection h with h
                  subst h
                  trivial
              | some t' =>
                  dsimp only at h
                  injection h with h
                  subst h
                  trivial
      | cons v2 rest =>
          simp only [tileSlot] at h
          by_cases hlen : (v :: v2 :: rest).length = total
          · rw [if_pos hlen] at h
            cases hg : (v :: v2 :: rest).get? index with
            | none => rw [hg] at h; exact Except.noConfusion h
            | some vv =>
                rw [hg] at h
                dsimp only at h
                by_cases hch : (!vv.hasChildNodes) = true
                · rw [if_pos hch] at h
                  injection h with h
                  subst h
                  trivial
                · rw [if_neg hch] at h
                  cases hm : vv.minetip with
                  | some t =>
                      rw [hm] at h
                      dsimp only at h
                      injection h with h
                      subst h
                      trivial
                  | none =>
                      rw [hm] at h
                      cases hl : vv.link with
                      | none => rw [hl] at h; exact Except.noConfusion h
                      | some t =>
                          rw [hl] at h
                          cases t with
                          | none =>
                              dsimp only at h
                              injection h with h
                              subst h
                              trivial
                          | some t' =>
                              dsimp only at h
                              injection h with h
                              subst h
                              trivial
          · rw [if_neg hlen] at h
            cases hts : collectTitles (v :: v2 :: rest) with
            | error e => rw [hts] at h; exact Except.noConfusion h
            | ok ts =>
                rw [hts] at h
                injection h with h
                rw [← h]
                show ts ≠ []
                have := collectTitles_length _ _ hts
                intro hc
                rw [hc] at this
                simp at this

theorem rowSlots_ok (total index : Nat) (tiles : List (List RecVariant))
    (ss : List Slot) (h : rowSlots total index tiles = .ok ss) :
    ss.length = tiles.length ∧ ∀ s ∈ ss, slotNonEmptyOK s := by
  induction tiles generalizing ss with
  | nil =>
      simp only [rowSlots] at h
      injection h with h
      rw [← h]
      exact ⟨rfl, by simp⟩
  | cons t ts ih =>
      simp only [rowSlots] at h
      cases hs : tileSlot total index t with
      | error e => rw [hs] at h; exact Except.noConfusion h
      | ok s0 =>
          rw [hs] at h
          cases hrest : rowSlots total index ts with
          | error e => rw [hrest] at h; exact Except.noConfusion h
          | ok ss' =>
              rw [hrest] at h
              injection h with h
              obtain ⟨hl, hall⟩ := ih ss' hrest
              rw [← h]
              refine ⟨by simp [hl], ?_⟩
              intro s hsin
              rcases List.mem_cons.1 hsin with heq | hmem
              · rw [heq]
                exact tileSlot_ok total index t s0 hs
              · exact hall s hmem

theorem rowRecipes_ok (tiles : List (List RecVariant)) (total : Nat)
    (names : List (Option String)) (index : Nat) (rs : List CraftingRecipe)
    (h : rowRecipes tiles total names index = .ok rs) :
    ∀ r ∈ rs, r.recipe.length = 9 ∧ ∀ s ∈ r.recipe, slotNonEmptyOK s := by
  induction names generalizing index rs with
  | nil =>
      simp only [rowRecipes] at h
      injection h with h
      rw [← h]
      simp
  | cons nm rest ih =>
      simp only [rowRecipes] at h
      by_cases hnine : tiles.length ≠ 9
      · rw [if_pos hnine] at h
        exact Except.noConfusion h
      · rw [if_neg hnine] at h
        cases hsl : rowSlots total index tiles with
        | error e => rw [hsl] at h; exact Except.noConfusion h
        | ok slots =>
            rw [hsl] at h
            cases hrr : rowRecipes tiles total rest (index + 1) with
            | error e => rw [hrr] at h; exact Except.noConfusion h
            | ok rs' =>
                rw [hrr] at h
                injection h with h
                intro r hr
                rw [← h] at hr
                rcases List.mem_cons.1 hr with heq | hmem
                · obtain ⟨hl, hall⟩ := rowSlots_ok total index tiles slots hsl
                  rw [heq]
                  refine ⟨?_, hall⟩
                  rw [hl]
                  omega
                · exact ih (index + 1) rs' hrr r hmem

theorem processRow_ok (row : RecRow) (rs : List CraftingRecipe)
    (h : processRow row = .ok rs) :
    ∀ r ∈ rs, r.recipe.length = 9 ∧ ∀ s ∈ r.recipe, slotNonEmptyOK s := by
  unfold processRow at h
  cases hn : collectOutputNames row.outputs with
  | error e => rw [hn] at h; exact Except.noConfusion h
  | ok names =>
      rw [hn] at h
      exact rowRecipes_ok row.tiles names.length names 0 rs h

theorem scrape_ok (rows : List RecRow) (rs : List CraftingRecipe)
    (h : scrapeCraftingRecipes rows = .ok rs) :
    ∀ r ∈ rs, r.recipe.length = 9 ∧ ∀ s ∈ r.recipe, slotNonEmptyOK s := by
  induction rows generalizing rs with
  | nil =>
      simp only [scrapeCraftingRecipes] at h
      injection h with h
      rw [← h]
      simp
  | cons row rest ih =>
      simp only [scrapeCraftingRecipes] at h
      cases hp : processRow row with
      | error e => rw [hp] at h; exact Except.noConfusion h
      | ok recs =>
          rw [hp] at h
          cases hr : scrapeCraftingRecipes rest with
          | error e => rw [hr] at h; exact Except.noConfusion h
          | ok more =>
              rw [hr] at h
              injection h with h
              intro r hrin
              rw [← h] at hrin
              rcases List.mem_append.1 hrin with hin | hin
              · exact processRow_ok row recs hp r hin
              · exact ih more hr r hin

theorem bed_recipes_ok (colors woods : List String) (hw : woods ≠ []) :
    ∀ r ∈ addColoredBedRecipes colors woods,
      r.recipe.length = 9 ∧ ∀ s ∈ r.recipe, slotNonEmptyOK s := by
  intro r hr
  obtain ⟨c, _, heq⟩ := List.mem_map.1 hr
  rw [← heq]
  refine ⟨rfl, ?_⟩
  intro s hs
  simp only [List.mem_cons, List.not_mem_nil, or_false] at hs
  rcases hs with rfl | rfl | rfl | rfl | rfl | rfl | rfl | rfl | rfl <;>
    simp [slotNonEmptyOK, hw]

theorem shulker_recipes_ok (colors : List String) (hc : colors ≠ []) :
    ∀ r ∈ addShulkerBoxRecipes colors,
      r.recipe.length = 9 ∧ ∀ s ∈ r.recipe, slotNonEmptyOK s := by
  intro r hr
  obtain ⟨c, _, heq⟩ := List.mem_map.1 hr
  rw [← heq]
  refine ⟨rfl, ?_⟩
  intro s hs
  simp only [List.mem_cons, List.not_mem_nil, or_false] at hs
  rcases hs with rfl | rfl | rfl | rfl | rfl | rfl | rfl | rfl | rfl <;>
    simp [slotNonEmptyOK, hc]

theorem tool_recipes_ok (materials : List (String × MatItem))
    (hm : ∀ m ∈ materials, slotNonEmptyOK m.2.slot) :
    ∀ r ∈ addToolRecipes materials,
      r.recipe.length = 9 ∧ ∀ s ∈ r.recipe, slotNonEmptyOK s := by
  induction materials with
  | nil => intro r hr; simp [addToolRecipes] at hr
  | cons m rest ih =>
      intro r hr
      have hmhead : slotNonEmptyOK m.2.slot := hm m (List.mem_cons_self m rest)
      simp only [addToolRecipes, List.foldr_cons] at hr
      rcases List.mem_append.1 hr with hin | hin
      · simp only [List.mem_cons, List.not_mem_nil, or_false] at hin
        rcases hin with rfl | rfl | rfl | rfl | rfl <;>
          refine ⟨rfl, ?_⟩ <;>
            intro s hs <;>
              simp only [List.mem_cons, List.not_mem_nil, or_false] at hs <;>
                rcases hs with rfl | rfl | rfl | rfl | rfl | rfl | rfl | rfl | rfl <;>
                  first
                    | exact hmhead
                    | simp [slotNonEmptyOK]
      · exact ih (fun x hx => hm x (List.mem_cons_of_mem m hx)) r hin

theorem firework_recipes_ok (colors : List String) (hc : colors ≠ []) :
    ∀ r ∈ addFireworkRecipes colors,
      r.recipe.length = 9 ∧ ∀ s ∈ r.recipe, slotNonEmptyOK s := by
  intro r hr
  simp only [addFireworkRecipes, List.mem_cons, List.not_mem_nil, or_false] at hr
  rcases hr with rfl | rfl | rfl | rfl <;>
    refine ⟨rfl, ?_⟩ <;>
      intro s hs <;>
        simp only [List.mem_cons, List.not_mem_nil, or_false] at hs <;>
          rcases hs with rfl | rfl | rfl | rfl | rfl | rfl | rfl | rfl | rfl <;>
            simp [slotNonEmptyOK, hc]

theorem arrow_recipes_ok (effects : List String) :
    ∀ r ∈ addTippedArrowRecipes effects,
      r.recipe.length = 9 ∧ ∀ s ∈ r.recipe, slotNonEmptyOK s := by
  intro r hr
  obtain ⟨c, _, heq⟩ := List.mem_map.1 hr
  rw [← heq]
  refine ⟨rfl, ?_⟩
  intro s hs
  simp only [List.mem_cons, List.not_mem_nil, or_false] at hs
  rcases hs with rfl | rfl | rfl | rfl | rfl | rfl | rfl | rfl | rfl <;>
    simp [slotNonEmptyOK]

theorem book_recipes_ok :
    ∀ r ∈ addWrittenBookRecipes,
      r.recipe.length = 9 ∧ ∀ s ∈ r.recipe, slotNonEmptyOK s := by
  intro r hr
  obtain ⟨k, hk, heq⟩ := List.mem_map.1 hr
  have hk8 : k < 8 := List.mem_range.1 hk
  rw [← heq]
  constructor
  · simp only [List.length_append, List.length_cons, List.length_replicate,
      List.length_nil]
    omega
  · intro s hs
    simp only [List.mem_append, List.mem_cons, List.not_mem_nil, or_false] at hs
    rcases hs with (rfl | hs) | hs
    · trivial
    · rw [List.eq_of_mem_replicate hs]
      trivial
    · rw [List.eq_of_mem_replicate hs]
      trivial

/-- Counterexample to C2 as stated: some produced recipe (the first Firework Star
recipe) has a slot that is a list CONTAINING `null` (e.g. `[null, ...dyes]`), so
not all list elements are ingredient name strings. -/
theorem recipe_grid_claim_counterexample :
    ((producedRecipes []).any (fun r => r.recipe.any (fun s => !claimSlotOKB s))) = true := by
  decide

/-- C2 (amended): every recipe produced by the recipes script - scraped (when the
scrape succeeds) or added by the special-case generators - has a grid of exactly 9
slots, and each slot is `null`, a single ingredient name string, or a NON-EMPTY
list whose elements are ingredient name strings OR `null` (the firework generators
deliberately include `null` among the alternatives). -/
theorem recipe_grid_nine_slots (rows : List RecRow) (rs : List CraftingRecipe)
    (h : scrapeCraftingRecipes rows = .ok rs) :
    ∀ r ∈ producedRecipes rs, r.recipe.length = 9 ∧ ∀ s ∈ r.recipe, slotNonEmptyOK s := by
  intro r hr
  unfold producedRecipes at hr
  rcases List.mem_append.1 hr with hin | hin
  swap
  · exact book_recipes_ok r hin
  rcases List.mem_append.1 hin with hin | hin
  swap
  · exact arrow_recipes_ok potionEffects r hin
  rcases List.mem_append.1 hin with hin | hin
  swap
  · exact firework_recipes_ok recipeColors (by simp [recipeColors]) r hin
  rcases List.mem_append.1 hin with hin | hin
  swap
  · apply tool_recipes_ok toolMaterials _ r hin
    intro m hm
    simp only [toolMaterials, List.mem_cons, List.not_mem_nil, or_false] at hm
    rcases hm with rfl | rfl | rfl | rfl | rfl <;>
      simp [MatItem.slot, slotNonEmptyOK, woodTypes]
  rcases List.mem_append.1 hin with hin | hin
  swap
  · exact shulker_recipes_ok recipeColors (by simp [recipeColors]) r hin
  rcases List.mem_append.1 hin with hin | hin
  swap
  · exact bed_recipes_ok recipeColors woodTypes (by simp [woodTypes]) r hin
  exact scrape_ok rows rs h r hin

/-- Witness for C2 (amended) at the empty scrape: the first generated recipe (the
White Bed) has exactly 9 slots. -/
theorem recipe_grid_nine_slots_witness :
    (CraftingRecipe.mk (some "White Bed") (some 1)
      [Slot.empty, Slot.empty, Slot.empty, Slot.ing "White Wool", Slot.ing "White Wool",
        Slot.ing "White Wool", Slot.alts (woodTypes.map some),
        Slot.alts (woodTypes.map some), Slot.alts (woodTypes.map some)]
      (some false)).recipe.length = 9 :=
  (recipe_grid_nine_slots [] [] rfl
    (CraftingRecipe.mk (some "White Bed") (some 1)
      [Slot.empty, Slot.empty, Slot.empty, Slot.ing "White Wool", Slot.ing "White Wool",
        Slot.ing "White Wool", Slot.alts (woodTypes.map some),
        Slot.alts (woodTypes.map some), Slot.alts (woodTypes.map some)]
      (some false))
    (by decide)).1
